import Mathlib

/-!
Verification of the weiroll planner (`weiroll/client.py`): the call-graph
data model, the visibility (preplan) analysis, the state-slot allocator and
the binary command encoder, shallowly embedded in Lean.

Python object identity is modelled with numeric ids: every `Command` carries
a `CommandId` and every planner is a `PlannerId` indexing into a heap of
command lists (Python planners reference each other freely, so the tree is
an arena).  Byte strings are `List Nat` with every entry a byte value.
External collaborators (eth_abi) are modelled by the interface the core
needs: `isDynamicType` and pre-encoded literal bytes.
-/

deriving instance DecidableEq for Except

namespace Weiroll

abbrev Bytes := List Nat
abbrev CommandId := Nat
abbrev PlannerId := Nat

/-- Suffix test on character lists (kernel-reducible `String.endsWith`). -/
def charSuffix (s suf : List Char) : Bool :=
  decide (s.drop (s.length - suf.length) = suf)

/-- Model of the external eth_abi `is_dynamic` predicate, on the type
descriptors that occur in this development: `bytes`, `string` and `T[]`
are dynamically sized, everything else is static. -/
def isDynamicType (param : String) : Bool :=
  param = "bytes" || param = "string" || charSuffix param.data "[]".data

/-- `padArray` from client.py: pad a list to `length` with `padValue`. -/
def padArray (a : List Nat) (length : Nat) (padValue : Nat) : List Nat :=
  a ++ List.replicate (length - a.length) padValue

/-- Ordered association-list update with Python-dict semantics: an existing
key keeps its position and gets the new value, a new key is appended. -/
def insertUpdate {α β : Type} [DecidableEq α] : List (α × β) → α → β → List (α × β)
  | [], k, v => [(k, v)]
  | (k', v') :: rest, k, v =>
      if k' = k then (k, v) :: rest else (k', v') :: insertUpdate rest k v

/-- Association-list lookup (Python dict `m[k]` / `k in m`). -/
def lookupA {α β : Type} [DecidableEq α] : List (α × β) → α → Option β
  | [], _ => none
  | (k', v) :: rest, k => if k' = k then some v else lookupA rest k

/-- `defaultdict(list)` lookup. -/
def lookupD {α : Type} [DecidableEq α] (m : List (α × List Nat)) (k : α) : List Nat :=
  (lookupA m k).getD []

/-- `defaultdict(list)`: `m[k].append`-style extension. -/
def appendExp {α : Type} [DecidableEq α] (m : List (α × List Nat)) (k : α)
    (slots : List Nat) : List (α × List Nat) :=
  insertUpdate m k (lookupD m k ++ slots)

/-- Left fold through `Except`, stopping at the first error (the shape of
every sequential loop in the planner). -/
def exceptFold {σ α : Type} (f : σ → α → Except String σ) : σ → List α → Except String σ
  | st, [] => .ok st
  | st, a :: rest =>
      match f st a with
      | .error e => .error e
      | .ok st' => exceptFold f st' rest

/-- `CommandType` from client.py. -/
inductive CommandType where
  | CALL
  | RAWCALL
  | SUBPLAN
deriving DecidableEq, Repr

/-- The argument variants of client.py: `LiteralValue(param, value)`,
`ReturnValue(param, command)` (the producing command is referenced by its
id; its fragment name is carried alongside because Python holds the whole
object and interpolates its name into error messages), `StateValue` and
`SubplanValue(planner)`. -/
inductive ArgValue where
  | literal (param : String) (value : Bytes)
  | ret (param : String) (command : CommandId) (fname : String)
  | state
  | subplan (planner : PlannerId)
deriving DecidableEq, Repr

/-- `arg.param`: `StateValue` and `SubplanValue` both set `param = "bytes[]"`
in their constructors. -/
def ArgValue.param : ArgValue → String
  | .literal p _ => p
  | .ret p _ _ => p
  | .state => "bytes[]"
  | .subplan _ => "bytes[]"

/-- `FunctionFragment`: selector bytes, declared input and output type
descriptors. -/
structure FunctionFragment where
  name : String
  signature : Bytes
  inputs : List String
  outputs : List String
deriving DecidableEq, Repr

/-- `CommandFlags` bit values from client.py. -/
def CALLTYPE_MASK : Nat := 0x03
def CALL_WITH_VALUE : Nat := 0x03
def EXTENDED_COMMAND : Nat := 0x40
def TUPLE_RETURN : Nat := 0x80

/-- `FunctionCall`: the target contract is represented by its 20-byte
address (the only part of it the planner reads). -/
structure FunctionCall where
  address : Bytes
  flags : Nat
  fragment : FunctionFragment
  args : List ArgValue
  callvalue : Option (String × Bytes)
deriving DecidableEq, Repr

/-- `Command = namedtuple("Command", "call,type")`, with an id standing in
for Python object identity (each `add`/`addSubplan` wraps a fresh call). -/
structure Command where
  id : CommandId
  call : FunctionCall
  type : CommandType
deriving DecidableEq, Repr

/-- A planner's own command list (`WeirollPlanner.commands`). -/
structure Planner where
  commands : List Command
deriving DecidableEq, Repr

/-- The arena of planners: `heap[pid]` is planner `pid`'s command list. -/
abbrev Heap := List (List Command)

def plannerCommands (heap : Heap) (pid : PlannerId) : List Command :=
  heap.getD pid []

def isSubplanArg : ArgValue → Bool
  | .subplan _ => true
  | _ => false

/-- `WeirollPlanner.add`: the command is appended to the planner FIRST, and
only then are the arguments checked for `SubplanValue`; the returned pair is
the (always) mutated planner plus either the error or the optional
`ReturnValue` (represented as its param and producing command id). -/
def Planner.add (p : Planner) (cid : CommandId) (call : FunctionCall) :
    Planner × Except String (Option (String × CommandId)) :=
  let p' : Planner := ⟨p.commands ++ [⟨cid, call, .CALL⟩]⟩
  if call.args.any isSubplanArg then
    (p', .error "Only subplans can have arguments of type SubplanValue")
  else if call.flags &&& TUPLE_RETURN ≠ 0 then
    (p', .ok (some ("bytes", cid)))
  else
    match call.fragment.outputs with
    | [o] => (p', .ok (some (o, cid)))
    | _ => (p', .ok none)

/-- The argument scan of `WeirollPlanner.addSubplan`: walks the arguments in
order tracking `hasSubplan`/`hasState`, failing on the second occurrence of
either variant exactly where Python raises. -/
def subplanArgCheck : List ArgValue → Bool → Bool → Except String (Bool × Bool)
  | [], hasSubplan, hasState => .ok (hasSubplan, hasState)
  | arg :: rest, hasSubplan, hasState =>
      match arg with
      | .subplan _ =>
          if hasSubplan then .error "Subplans can only take one planner argument"
          else subplanArgCheck rest true hasState
      | .state =>
          if hasState then .error "Subplans can only take one state argument"
          else subplanArgCheck rest hasSubplan true
      | _ => subplanArgCheck rest hasSubplan hasState

/-- `WeirollPlanner.addSubplan`: argument-shape checks, then the output
check (`outputs and len(outputs) == 1 and outputs[0] != "bytes[]"`), and only
then the append of the SUBPLAN command. -/
def Planner.addSubplan (p : Planner) (cid : CommandId) (call : FunctionCall) :
    Except String Planner := do
  let (hasSubplan, hasState) ← subplanArgCheck call.args false false
  if ¬hasSubplan ∨ ¬hasState then
    .error "Subplans must take planner and state arguments"
  else if call.fragment.outputs.length = 1 ∧
      call.fragment.outputs.head? ≠ some "bytes[]" then
    .error "Subplans must return a bytes[] replacement state or nothing"
  else
    .ok ⟨p.commands ++ [⟨cid, call, .SUBPLAN⟩]⟩

/-- The `inargs` computation shared by `_preplan` and `_buildCommandArgs`:
a `CALL_WITH_VALUE` call prepends its callvalue literal (failing when the
callvalue is absent), every other call uses its arguments as they are. -/
def callInargs (call : FunctionCall) : Except String (List ArgValue) :=
  if call.flags &&& CALLTYPE_MASK = CALL_WITH_VALUE then
    match call.callvalue with
    | none => .error "Call with value must have a value parameter"
    | some (p, v) => .ok (.literal p v :: call.args)
  else
    .ok call.args

/-- The state threaded through `_preplan`: the two visibility dicts built
for the caller, plus the `seen` and `planners` sets (which in Python are
mutable default arguments, shared across top-level `plan()` calls). -/
structure PreplanState where
  commandVisibility : List (CommandId × CommandId)
  literalVisibility : List (Bytes × CommandId)
  seen : List CommandId
  planners : List PlannerId
deriving DecidableEq, Repr

/-- One argument step of `_preplan`'s inner loop.  `recur` is the recursive
entry into a nested planner; a read-only subplan (enclosing call declares no
outputs) recurses on a copy of `seen`, so the caller's `seen` is restored
afterwards, while the visibility maps and `planners` stay shared. -/
def preplanArg (recur : PlannerId → PreplanState → Except String PreplanState)
    (outputs : List String) (cid : CommandId) (st : PreplanState) (arg : ArgValue) :
    Except String PreplanState :=
  match arg with
  | .ret _ rcid rname =>
      if rcid ∈ st.seen then
        .ok { st with commandVisibility := insertUpdate st.commandVisibility rcid cid }
      else
        .error ("Return value from '" ++ rname ++ "' is not visible here")
  | .literal _ v =>
      .ok { st with literalVisibility := insertUpdate st.literalVisibility v cid }
  | .subplan spid => do
      let st' ← recur spid st
      if outputs.isEmpty then .ok { st' with seen := st.seen } else .ok st'
  | .state => .ok st

/-- One command of `_preplan`'s outer loop: process the inargs in order,
then add the command to `seen`. -/
def preplanCmd (recur : PlannerId → PreplanState → Except String PreplanState)
    (st : PreplanState) (c : Command) : Except String PreplanState := do
  let inargs ← callInargs c.call
  let st' ← exceptFold (preplanArg recur c.call.fragment.outputs c.id) st inargs
  .ok { st' with seen := c.id :: st'.seen }

/-- `WeirollPlanner._preplan`.  Recursion into subplanners is through the
heap, so it is fuelled; Python terminates through the `planners` check,
which fires before any recursive step. -/
def preplanPlanner (heap : Heap) : Nat → PlannerId → PreplanState → Except String PreplanState
  | 0, _, _ => .error "planner recursion limit exceeded"
  | fuel + 1, pid, st =>
      if pid ∈ st.planners then
        .error "A planner cannot contain itself"
      else
        exceptFold (preplanCmd (preplanPlanner heap fuel))
          { st with planners := pid :: st.planners } (plannerCommands heap pid)

/-- `PlannerState` from client.py (the allocator/encoder working state). -/
structure PS where
  returnSlotMap : List (CommandId × Nat)
  literalSlotMap : List (Bytes × Nat)
  freeSlots : List Nat
  stateExpirations : List (CommandId × List Nat)
  commandVisibility : List (CommandId × CommandId)
  state : List Bytes
deriving DecidableEq, Repr

/-- One argument resolution of `_buildCommandArgs`: slot index from the
relevant map (a missing dict entry is Python's `KeyError`), `0xFE` for the
state placeholder, the last state slot for a subplan, with bit `0x80` set
for dynamically typed arguments. -/
def resolveArg (returnSlotMap : List (CommandId × Nat)) (literalSlotMap : List (Bytes × Nat))
    (stateLen : Nat) (arg : ArgValue) : Except String Nat := do
  let slot ←
    match arg with
    | .ret _ rcid _ =>
        match lookupA returnSlotMap rcid with
        | some s => Except.ok s
        | none => Except.error "KeyError: returnSlotMap"
    | .literal _ v =>
        match lookupA literalSlotMap v with
        | some s => Except.ok s
        | none => Except.error "KeyError: literalSlotMap"
    | .state => Except.ok 0xFE
    | .subplan _ => Except.ok (stateLen - 1)
  if isDynamicType arg.param then .ok (slot ||| 0x80) else .ok slot

/-- `WeirollPlanner._buildCommandArgs`. -/
def buildCommandArgs (c : Command) (returnSlotMap : List (CommandId × Nat))
    (literalSlotMap : List (Bytes × Nat)) (state : List Bytes) :
    Except String (List Nat) := do
  let inargs ← callInargs c.call
  inargs.mapM (resolveArg returnSlotMap literalSlotMap state.length)

/-- The first subplan argument of a command (`next(...)` in client.py). -/
def findSubplanArg : List ArgValue → Option PlannerId
  | [] => none
  | .subplan spid :: _ => some spid
  | _ :: rest => findSubplanArg rest

/-- `eth_abi_encode_single("bytes32[]", subcommands)[32:]`: the offset and
length words stripped, what remains is the 32-byte command words
concatenated. -/
def flattenWords (ws : List Bytes) : Bytes := ws.flatten

/-- The SUBPLAN prologue of `_buildCommands`'s loop body: recursively build
the subplanner against the same working state, append the serialized
subcommands as a new state entry, and mark that slot free. -/
def subplanPhase (recur : PlannerId → PS → Except String (List Bytes × PS))
    (c : Command) (ps : PS) : Except String PS :=
  if c.type = .SUBPLAN then
    match findSubplanArg c.call.args with
    | none => .error "StopIteration: subplan command has no subplan argument"
    | some spid =>
        match recur spid ps with
        | .error e => .error e
        | .ok (subcommands, ps') =>
            let st' := ps'.state ++ [flattenWords subcommands]
            .ok { ps' with state := st', freeSlots := ps'.freeSlots ++ [st'.length - 1] }
  else
    .ok ps

/-- `command.call.fragment.outputs and isDynamicType(command.call.fragment.outputs[0])`. -/
def firstOutputDynamic : List String → Bool
  | o :: _ => isDynamicType o
  | [] => false

/-- The emission part of `_buildCommands`'s loop body for one command:
argument resolution, the extended-command threshold, slot release, return
slot allocation (with the RAWCALL/SUBPLAN consumption check), and the one-
or two-word instruction encoding. -/
def emitCommand (c : Command) (ps : PS) : Except String (List Bytes × PS) :=
  match buildCommandArgs c ps.returnSlotMap ps.literalSlotMap ps.state with
  | .error e => .error e
  | .ok args =>
    let flags0 := c.call.flags
    let flags := if args.length > 6 then flags0 ||| EXTENDED_COMMAND else flags0
    let freeSlots := ps.freeSlots ++ lookupD ps.stateExpirations c.id
    let emit : Nat → PS → Except String (List Bytes × PS) := fun retByte psOut =>
      if flags &&& EXTENDED_COMMAND = EXTENDED_COMMAND then
        .ok ([c.call.fragment.signature ++ [flags] ++ List.replicate 6 0xFF ++ [retByte] ++
                c.call.address,
              padArray args 32 0xFF], psOut)
      else
        .ok ([c.call.fragment.signature ++ [flags] ++ padArray args 6 0xFF ++ [retByte] ++
                c.call.address], psOut)
    match lookupA ps.commandVisibility c.id with
    | some expiryCommand =>
        if c.type = .RAWCALL ∨ c.type = .SUBPLAN then
          .error ("Return value of " ++ c.call.fragment.name ++
            " cannot be used to replace state and in another function")
        else
          let (ret, freeSlots') :=
            match freeSlots.getLast? with
            | some t => (t, freeSlots.dropLast)
            | none => (ps.state.length, freeSlots)
          let rsm := insertUpdate ps.returnSlotMap c.id ret
          let exps := appendExp ps.stateExpirations expiryCommand [ret]
          let state' := if ret = ps.state.length then ps.state ++ [[]] else ps.state
          let retByte :=
            if firstOutputDynamic c.call.fragment.outputs ∨
                c.call.flags &&& TUPLE_RETURN ≠ 0 then
              ret ||| 0x80
            else ret
          emit retByte
            { ps with returnSlotMap := rsm, freeSlots := freeSlots',
                      stateExpirations := exps, state := state' }
    | none =>
        let retByte :=
          if (c.type = .RAWCALL ∨ c.type = .SUBPLAN) ∧
              c.call.fragment.outputs.length = 1 then 0xFE
          else 0xFF
        emit retByte { ps with freeSlots := freeSlots }

/-- One command of `_buildCommands`'s loop: the subplan prologue, then the
emission, accumulating encoded words. -/
def buildCmd (recur : PlannerId → PS → Except String (List Bytes × PS))
    (acc : List Bytes × PS) (c : Command) : Except String (List Bytes × PS) :=
  match subplanPhase recur c acc.2 with
  | .error e => .error e
  | .ok ps =>
      match emitCommand c ps with
      | .error e => .error e
      | .ok (words, ps') => .ok (acc.1 ++ words, ps')

/-- `WeirollPlanner._buildCommands` (fuelled through the heap like
`_preplan`; Python relies on `_preplan` having rejected cycles). -/
def buildCommands (heap : Heap) : Nat → PlannerId → PS → Except String (List Bytes × PS)
  | 0, _, _ => .error "planner recursion limit exceeded"
  | fuel + 1, pid, ps =>
      exceptFold (buildCmd (buildCommands heap fuel)) ([], ps) (plannerCommands heap pid)

/-- The mutable default arguments of `_preplan` (`seen=set(), planners=set()`):
one object per Python process, shared by every top-level `plan()` call. -/
structure Globals where
  seen : List CommandId
  planners : List PlannerId
deriving DecidableEq, Repr

/-- The literal prepopulation loop of `plan()`: walk `literalVisibility` in
insertion order, append each literal to the state, record its slot, and seed
its expiration at its last consuming command. -/
def prepop : List (Bytes × CommandId) → List Bytes → List (Bytes × Nat) →
    List (CommandId × List Nat) →
    List Bytes × List (Bytes × Nat) × List (CommandId × List Nat)
  | [], state, lsm, exps => (state, lsm, exps)
  | (lit, lastCommand) :: rest, state, lsm, exps =>
      prepop rest (state ++ [lit]) (insertUpdate lsm lit state.length)
        (appendExp exps lastCommand [state.length])

/-- `WeirollPlanner.plan`, with the allocator working state also returned
(Python keeps it internal).  On success the updated default sets are
returned alongside; Python's defaults also retain mutations from failed
runs, which no claim depends on. -/
def planFull (heap : Heap) (fuel : Nat) (pid : PlannerId) (g : Globals) :
    Except String ((List Bytes × List Bytes) × PS × Globals) :=
  match preplanPlanner heap fuel pid ⟨[], [], g.seen, g.planners⟩ with
  | .error e => .error e
  | .ok pre =>
      let (state, lsm, exps) := prepop pre.literalVisibility [] [] []
      let ps : PS := ⟨[], lsm, [], exps, pre.commandVisibility, state⟩
      match buildCommands heap fuel pid ps with
      | .error e => .error e
      | .ok (encodedCommands, ps') =>
          .ok ((encodedCommands, ps'.state), ps', ⟨pre.seen, pre.planners⟩)

/-- `plan()`'s public result: `(commands, state)` plus the persisting
default-argument sets. -/
def plan (heap : Heap) (fuel : Nat) (pid : PlannerId) (g : Globals) :
    Except String ((List Bytes × List Bytes) × Globals) :=
  (planFull heap fuel pid g).map fun r => (r.1, r.2.2)

def isStateArg : ArgValue → Bool
  | .state => true
  | _ => false

/-- Overapproximation of the command ids `buildCommands heap fuel pid` can
process: every command of the planner plus, through each first subplan
argument, the ids reachable with one less fuel. -/
def subIds (heap : Heap) : Nat → PlannerId → List CommandId
  | 0, _ => []
  | fuel + 1, pid =>
      (plannerCommands heap pid).flatMap fun c =>
        c.id :: (match findSubplanArg c.call.args with
          | some q => subIds heap fuel q
          | none => [])

/-- Overapproximation of the command ids a fold of `buildCmd` over `l` with
recursion `buildCommands heap fuel` can process. -/
def segIds (heap : Heap) (fuel : Nat) (l : List Command) : List CommandId :=
  l.flatMap fun c =>
    c.id :: (match findSubplanArg c.call.args with
      | some q => subIds heap fuel q
      | none => [])

/-- `segIds` with the per-subplan id set abstracted (so that one lemma
covers both the outer fold and the recursive `buildCommands` call). -/
def segIdsW (ids : PlannerId → List CommandId) (l : List Command) : List CommandId :=
  l.flatMap fun c =>
    c.id :: (match findSubplanArg c.call.args with
      | some q => ids q
      | none => [])

/-- The liveness invariant `_buildCommands` maintains for a state slot `s`
currently holding a live value: no new command was mapped to `s` in
`returnSlotMap`, `s` never entered the free list, `s` acquired no new
expiration entry, and the slot's contents survived untouched. -/
def SlotPreserved (s : Nat) (ps ps1 : PS) : Prop :=
  (∀ cid, lookupA ps1.returnSlotMap cid = some s → lookupA ps.returnSlotMap cid = some s) ∧
  s ∉ ps1.freeSlots ∧
  (∀ Y, s ∈ lookupD ps1.stateExpirations Y → s ∈ lookupD ps.stateExpirations Y) ∧
  s < ps1.state.length ∧
  ps1.state.getD s [] = ps.state.getD s []

/-- `q` occurs as a `SubplanValue` argument of some command of planner `p`. -/
def SubplanEdge (heap : Heap) (p q : PlannerId) : Prop :=
  ∃ c ∈ plannerCommands heap p, ArgValue.subplan q ∈ c.call.args

/-- Transitive subplan reachability (head-first closure of `SubplanEdge`):
`SubReach heap p p` says planner `p` transitively contains itself. -/
inductive SubReach (heap : Heap) : PlannerId → PlannerId → Prop
  | step {p q : PlannerId} : SubplanEdge heap p q → SubReach heap p q
  | head {p q r : PlannerId} : SubplanEdge heap p q → SubReach heap q r → SubReach heap p r

/-! ### Concrete programs used by the claims

A small vocabulary of fragments mirroring the repository's test contracts
(`Math.add`, a `Strings`-style consumer, `TestableVM`-style subplan entry
points), with literal bytes standing for the external ABI encoding of small
uint256 values. -/

/-- Model of `eth_abi.encode(["uint256"], [n])` for `n < 256`. -/
def encUint (n : Nat) : Bytes := List.replicate 31 0 ++ [n]

def mathAddr : Bytes := List.replicate 19 0 ++ [0xAA]

def subAddr : Bytes := List.replicate 19 0 ++ [0xBB]

def addFrag : FunctionFragment :=
  ⟨"add", [0x77, 0x16, 0x02, 0xf7], ["uint256", "uint256"], ["uint256"]⟩

/-- `math.add(a, b)` as a library (DELEGATECALL) call. -/
def addCall (a b : ArgValue) : FunctionCall := ⟨mathAddr, 0, addFrag, [a, b], none⟩

def squareFrag : FunctionFragment :=
  ⟨"square", [0x11, 0x11, 0x11, 0x11], ["uint256"], ["uint256"]⟩

def sevenFrag : FunctionFragment :=
  ⟨"seven", [0x22, 0x22, 0x22, 0x22], [], ["uint256"]⟩

/-- A subplan entry point taking an extra uint argument and returning the
replacement state. -/
def execFrag : FunctionFragment :=
  ⟨"execute", [0x33, 0x33, 0x33, 0x33], ["uint256", "bytes32[]", "bytes[]"], ["bytes[]"]⟩

/-- A subplan entry point returning the replacement state. -/
def exec2Frag : FunctionFragment :=
  ⟨"execute", [0x33, 0x33, 0x33, 0x33], ["bytes32[]", "bytes[]"], ["bytes[]"]⟩

/-- A read-only subplan entry point (no declared outputs). -/
def roExecFrag : FunctionFragment :=
  ⟨"execute", [0x33, 0x33, 0x33, 0x33], ["bytes32[]", "bytes[]"], []⟩

/-- C1: a single planner holding one `math.add(1, 2)` command. -/
def c1Heap : Heap :=
  [[⟨0, addCall (.literal "uint256" (encUint 1)) (.literal "uint256" (encUint 2)), .CALL⟩]]

/-- C7: `sum = add(1, 2); add(sum, 3)` in one planner. -/
def c7Heap : Heap := [[
  ⟨0, addCall (.literal "uint256" (encUint 1)) (.literal "uint256" (encUint 2)), .CALL⟩,
  ⟨1, addCall (.ret "uint256" 0 "add") (.literal "uint256" (encUint 3)), .CALL⟩]]

/-- C3 counterexample: planner 0 transitively contains itself (its second
command subplans planner 0), but its first command references a return
value (command id 99) that was never produced in any visible scope. -/
def c3aHeap : Heap := [[
  ⟨0, addCall (.ret "uint256" 99 "add") (.literal "uint256" (encUint 3)), .CALL⟩,
  ⟨1, ⟨subAddr, 1, execFrag,
      [.literal "uint256" (encUint 7), .subplan 0, .state], none⟩, .SUBPLAN⟩]]

/-- C3 witness: a planner whose only command subplans the planner itself
(the repository's `test_forbid_infinite_loops` scenario). -/
def c3bHeap : Heap :=
  [[⟨0, ⟨subAddr, 1, exec2Frag, [.subplan 0, .state], none⟩, .SUBPLAN⟩]]

/-- C4 counterexample: the exact 32-byte instruction word that the
subplanner `c4Q` below encodes to (checked by `c4_counterexample`), used in
the parent as a `bytes32` literal with identical bytes. -/
def c4W : Bytes :=
  [0x77, 0x16, 0x02, 0xf7, 0, 1, 1, 0xFF, 0xFF, 0xFF, 0xFF, 0xFF] ++ mathAddr

def useBytesFrag : FunctionFragment :=
  ⟨"useBytes", [0x44, 0x44, 0x44, 0x44], ["bytes32"], []⟩

/-- C4 counterexample parent: two calls passing the literal `c4W`, then a
subplan whose serialized body is byte-identical to `c4W`. -/
def c4P : List Command := [
  ⟨1, ⟨mathAddr, 0, useBytesFrag, [.literal "bytes32" c4W], none⟩, .CALL⟩,
  ⟨2, ⟨mathAddr, 0, useBytesFrag, [.literal "bytes32" c4W], none⟩, .CALL⟩,
  ⟨3, ⟨subAddr, 1, exec2Frag, [.subplan 1, .state], none⟩, .SUBPLAN⟩]

def c4Q : List Command :=
  [⟨0, addCall (.literal "uint256" (encUint 1)) (.literal "uint256" (encUint 1)), .CALL⟩]

def c4Heap : Heap := [c4P, c4Q]

/-- C5: read-only subplan (no declared outputs) producing `add(1, 2)`,
whose return value is then referenced after the subplan. -/
def c5aHeap : Heap := [[
  ⟨1, ⟨subAddr, 1, roExecFrag, [.subplan 1, .state], none⟩, .SUBPLAN⟩,
  ⟨2, addCall (.ret "uint256" 0 "add") (.literal "uint256" (encUint 3)), .CALL⟩],
  [⟨0, addCall (.literal "uint256" (encUint 1)) (.literal "uint256" (encUint 2)), .CALL⟩]]

/-- C5: the same program with a `bytes[]`-returning subplan call. -/
def c5bHeap : Heap := [[
  ⟨1, ⟨subAddr, 1, exec2Frag, [.subplan 1, .state], none⟩, .SUBPLAN⟩,
  ⟨2, addCall (.ret "uint256" 0 "add") (.literal "uint256" (encUint 3)), .CALL⟩],
  [⟨0, addCall (.literal "uint256" (encUint 1)) (.literal "uint256" (encUint 2)), .CALL⟩]]

def useStateFrag : FunctionFragment :=
  ⟨"useState", [0x55, 0x55, 0x55, 0x55], ["bytes[]"], ["bytes[]"]⟩

def logFrag : FunctionFragment :=
  ⟨"logBytes", [0x66, 0x66, 0x66, 0x66], ["bytes[]"], []⟩

/-- C9 witness: a RAWCALL (`replaceState`-style) command whose return value
is also consumed by the following command. -/
def c9Heap : Heap := [[
  ⟨0, ⟨mathAddr, 1, useStateFrag, [.state], none⟩, .RAWCALL⟩,
  ⟨1, ⟨mathAddr, 0, logFrag, [.ret "bytes[]" 0 "useState"], none⟩, .CALL⟩]]

/-- C9 counterexample: the same consumed RAWCALL, preceded by a command
referencing an unbound return value (command id 99). -/
def c9aHeap : Heap := [[
  ⟨2, ⟨mathAddr, 0, squareFrag, [.ret "uint256" 99 "ghost"], none⟩, .CALL⟩,
  ⟨0, ⟨mathAddr, 1, useStateFrag, [.state], none⟩, .RAWCALL⟩,
  ⟨1, ⟨mathAddr, 0, logFrag, [.ret "bytes[]" 0 "useState"], none⟩, .CALL⟩]]

/-- C6 counterexample: a subplan call declaring TWO output types. -/
def c6MultiFrag : FunctionFragment :=
  ⟨"execute", [0x33, 0x33, 0x33, 0x33], ["bytes32[]", "bytes[]"], ["uint256", "uint256"]⟩

def c6MultiCall : FunctionCall := ⟨subAddr, 1, c6MultiFrag, [.subplan 1, .state], none⟩

/-- C2 witness program: `s1 = add(1, 2); s2 = add(3, 4); add(s1, s2)` —
`s1`'s slot must survive the emission of the middle command. -/
def c2Heap : Heap := [[
  ⟨0, addCall (.literal "uint256" (encUint 1)) (.literal "uint256" (encUint 2)), .CALL⟩,
  ⟨1, addCall (.literal "uint256" (encUint 3)) (.literal "uint256" (encUint 4)), .CALL⟩,
  ⟨2, addCall (.ret "uint256" 0 "add") (.ret "uint256" 1 "add"), .CALL⟩]]

/-- The middle command of `c2Heap` (`s2 = add(3, 4)`), whose emission must
not disturb slot 1 holding `s1`. -/
def c2MidCmd : Command :=
  ⟨1, addCall (.literal "uint256" (encUint 3)) (.literal "uint256" (encUint 4)), .CALL⟩

/-- The allocator state of `c2Heap` right after its first command: slot 1
holds command 0's return value, consumed only by command 2. -/
def c2MidPS : PS :=
  ⟨[(0, 1)],
   [(encUint 1, 0), (encUint 2, 1), (encUint 3, 2), (encUint 4, 3)],
   [0],
   [(0, [0, 1]), (1, [2, 3]), (2, [1])],
   [(0, 2), (1, 2)],
   [encUint 1, encUint 2, encUint 3, encUint 4]⟩

/-- C10 witness: a plain `add` whose second argument is a subplan value. -/
def c10Call : FunctionCall :=
  ⟨mathAddr, 0, addFrag, [.literal "uint256" (encUint 1), .subplan 1], none⟩

/-- C8 witness fragments: a 7-argument and a 6-argument callable. -/
def c8Frag7 : FunctionFragment :=
  ⟨"f7", [0x88, 0x88, 0x88, 0x88],
   ["uint256", "uint256", "uint256", "uint256", "uint256", "uint256", "uint256"], []⟩

def c8Frag6 : FunctionFragment :=
  ⟨"f6", [0x99, 0x99, 0x99, 0x99],
   ["uint256", "uint256", "uint256", "uint256", "uint256", "uint256"], []⟩

def c8Lits (n : Nat) : List ArgValue :=
  (List.range n).map fun i => .literal "uint256" (encUint i)

def c8Cmd7 : Command := ⟨0, ⟨mathAddr, 1, c8Frag7, c8Lits 7, none⟩, .CALL⟩

def c8Cmd6 : Command := ⟨0, ⟨mathAddr, 1, c8Frag6, c8Lits 6, none⟩, .CALL⟩

/-- C8 witness allocator state: the seven literals prepopulated. -/
def c8PS : PS :=
  ⟨[], (List.range 7).map (fun i => (encUint i, i)), [], [], [],
   (List.range 7).map encUint⟩

/-- A reflexive-transitive relation compatible with every primitive state
update `_preplan` performs (see the preservation lemmas below). -/
def PreUpd (R : PreplanState → PreplanState → Prop) : Prop :=
  (∀ s, R s s) ∧
  (∀ a b c, R a b → R b c → R a c) ∧
  (∀ s k v, R s { s with commandVisibility := insertUpdate s.commandVisibility k v }) ∧
  (∀ s k v, R s { s with literalVisibility := insertUpdate s.literalVisibility k v }) ∧
  (∀ s t, R s t → R s { t with seen := s.seen }) ∧
  (∀ s c, R s { s with seen := c :: s.seen }) ∧
  (∀ s p, R s { s with planners := p :: s.planners })

/-! ### Generic lemmas about the fold and the association lists -/

theorem exceptFold_rel {σ α : Type} (R : σ → σ → Prop)
    (hrefl : ∀ s, R s s) (htrans : ∀ a b c, R a b → R b c → R a c)
    (f : σ → α → Except String σ)
    (hf : ∀ st a st', f st a = .ok st' → R st st') :
    ∀ l st st', exceptFold f st l = .ok st' → R st st' := by
  intro l
  induction l with
  | nil =>
      intro st st' h
      simp only [exceptFold, Except.ok.injEq] at h
      exact h ▸ hrefl st
  | cons a rest ih =>
      intro st st' h
      simp only [exceptFold] at h
      cases hfa : f st a with
      | error e => rw [hfa] at h; cases h
      | ok st1 => rw [hfa] at h; exact htrans _ _ _ (hf st a st1 hfa) (ih st1 st' h)

theorem exceptFold_elem_rel {σ α : Type} (R : σ → σ → Prop)
    (hrefl : ∀ s, R s s) (htrans : ∀ a b c, R a b → R b c → R a c)
    (f : σ → α → Except String σ)
    (hf : ∀ st a st', f st a = .ok st' → R st st') :
    ∀ l st st', exceptFold f st l = .ok st' → ∀ a ∈ l,
      ∃ s1 s2, R st s1 ∧ f s1 a = .ok s2 ∧ R s2 st' := by
  intro l
  induction l with
  | nil => intro st st' _ a ha; cases ha
  | cons b rest ih =>
      intro st st' h a ha
      simp only [exceptFold] at h
      cases hfb : f st b with
      | error e => rw [hfb] at h; cases h
      | ok st1 =>
          rw [hfb] at h
          rcases List.mem_cons.mp ha with rfl | hmem
          · exact ⟨st, st1, hrefl st, hfb, exceptFold_rel R hrefl htrans f hf rest st1 st' h⟩
          · obtain ⟨s1, s2, h1, h2, h3⟩ := ih st1 st' h a hmem
            exact ⟨s1, s2, htrans _ _ _ (hf st b st1 hfb) h1, h2, h3⟩

theorem lookupA_insertUpdate {α β : Type} [DecidableEq α]
    (m : List (α × β)) (k : α) (v : β) (k' : α) :
    lookupA (insertUpdate m k v) k' = if k' = k then some v else lookupA m k' := by
  induction m with
  | nil =>
      by_cases h : k' = k
      · subst h; simp [insertUpdate, lookupA]
      · have h2 : ¬ k = k' := fun hh => h hh.symm
        simp [insertUpdate, lookupA, h, h2]
  | cons p rest ih =>
      obtain ⟨a, b⟩ := p
      by_cases hak : a = k
      · subst hak
        by_cases h : k' = a
        · subst h; simp [insertUpdate, lookupA]
        · have h2 : ¬ a = k' := fun hh => h hh.symm
          simp [insertUpdate, lookupA, h, h2]
      · by_cases h : k' = k
        · subst h
          have h2 : ¬ a = k' := hak
          simp [insertUpdate, lookupA, hak, h2, ih]
        · by_cases hak' : a = k'
          · simp [insertUpdate, lookupA, hak, hak', h]
          · simp [insertUpdate, lookupA, hak, hak', h, ih]

theorem insertUpdate_keys {α β : Type} [DecidableEq α]
    (m : List (α × β)) (k : α) (v : β) :
    (insertUpdate m k v).map Prod.fst = m.map Prod.fst ∨
    (insertUpdate m k v).map Prod.fst = m.map Prod.fst ++ [k] := by
  induction m with
  | nil => right; simp [insertUpdate]
  | cons p rest ih =>
      obtain ⟨a, b⟩ := p
      by_cases hak : a = k
      · left; simp [insertUpdate, hak]
      · rcases ih with h | h
        · left; simp [insertUpdate, hak, h]
        · right; simp [insertUpdate, hak, h]

theorem insertUpdate_keys_nodup {α β : Type} [DecidableEq α]
    (m : List (α × β)) (k : α) (v : β) (h : (m.map Prod.fst).Nodup) :
    ((insertUpdate m k v).map Prod.fst).Nodup := by
  induction m with
  | nil => simp [insertUpdate]
  | cons p rest ih =>
      obtain ⟨a, b⟩ := p
      simp only [List.map_cons, List.nodup_cons] at h
      by_cases hak : a = k
      · subst hak
        simp only [insertUpdate, if_pos rfl]
        simpa using h
      · simp only [insertUpdate, if_neg hak, List.map_cons, List.nodup_cons]
        refine ⟨?_, ih h.2⟩
        rcases insertUpdate_keys rest k v with hk | hk
        · rw [hk]; exact h.1
        · rw [hk]
          simp only [List.mem_append, List.mem_singleton]
          rintro (hmem | rfl)
          · exact h.1 hmem
          · exact hak rfl

theorem lookupA_isSome_of_mem_keys {α β : Type} [DecidableEq α]
    (m : List (α × β)) (k : α) (h : k ∈ m.map Prod.fst) :
    (lookupA m k).isSome := by
  induction m with
  | nil => cases h
  | cons p rest ih =>
      obtain ⟨a, b⟩ := p
      by_cases hka : a = k
      · simp [lookupA, hka]
      · simp only [List.map_cons, List.mem_cons] at h
        rcases h with rfl | h
        · exact absurd rfl hka
        · simp only [lookupA]
          rw [if_neg hka]
          exact ih h

theorem mem_keys_of_lookupA_isSome {α β : Type} [DecidableEq α]
    (m : List (α × β)) (k : α) (h : (lookupA m k).isSome) :
    k ∈ m.map Prod.fst := by
  induction m with
  | nil => simp [lookupA] at h
  | cons p rest ih =>
      obtain ⟨a, b⟩ := p
      by_cases hka : a = k
      · simp [hka]
      · simp only [lookupA] at h
        rw [if_neg hka] at h
        simp only [List.map_cons, List.mem_cons]
        exact Or.inr (ih h)

/-! ### Preservation through `_preplan`

Every mutation `_preplan` performs on its threaded state is one of: a
`commandVisibility`/`literalVisibility` insert, a cons on `seen` or
`planners`, or (read-only subplans) restoring the caller's `seen`.  Any
reflexive-transitive relation compatible with those updates is preserved by
the whole analysis. -/

theorem preplanArg_rel {R : PreplanState → PreplanState → Prop} (hR : PreUpd R)
    (recur : PlannerId → PreplanState → Except String PreplanState)
    (hrec : ∀ pid s s', recur pid s = .ok s' → R s s')
    (outputs : List String) (cid : CommandId) (st : PreplanState) (arg : ArgValue)
    (st' : PreplanState) (h : preplanArg recur outputs cid st arg = .ok st') : R st st' := by
  obtain ⟨hrefl, htrans, hcv, hlv, hrestore, hseen, hplan⟩ := hR
  cases arg with
  | ret p rcid rname =>
      by_cases hm : rcid ∈ st.seen
      · simp only [preplanArg, if_pos hm, Except.ok.injEq] at h
        exact h ▸ hcv st rcid cid
      · simp only [preplanArg, if_neg hm] at h
        exact Except.noConfusion h
  | literal p v =>
      simp only [preplanArg, Except.ok.injEq] at h
      exact h ▸ hlv st v cid
  | state =>
      simp only [preplanArg, Except.ok.injEq] at h
      exact h ▸ hrefl st
  | subplan spid =>
      simp only [preplanArg] at h
      cases hr : recur spid st with
      | error e =>
          rw [hr] at h
          exact Except.noConfusion (show (Except.error e : Except String PreplanState) = .ok st' from h)
      | ok st1 =>
          rw [hr] at h
          have h2 : (if outputs.isEmpty then
              (Except.ok { st1 with seen := st.seen } : Except String PreplanState)
            else .ok st1) = .ok st' := h
          split at h2
          · simp only [Except.ok.injEq] at h2
            exact h2 ▸ hrestore st st1 (hrec spid st st1 hr)
          · simp only [Except.ok.injEq] at h2
            exact h2 ▸ hrec spid st st1 hr

theorem preplanCmd_rel {R : PreplanState → PreplanState → Prop} (hR : PreUpd R)
    (recur : PlannerId → PreplanState → Except String PreplanState)
    (hrec : ∀ pid s s', recur pid s = .ok s' → R s s')
    (st : PreplanState) (c : Command) (st' : PreplanState)
    (h : preplanCmd recur st c = .ok st') : R st st' := by
  simp only [preplanCmd] at h
  cases hin : callInargs c.call with
  | error e =>
      rw [hin] at h
      exact Except.noConfusion (show (Except.error e : Except String PreplanState) = .ok st' from h)
  | ok inargs =>
      rw [hin] at h
      have h2 : (exceptFold (preplanArg recur c.call.fragment.outputs c.id) st inargs).bind
          (fun st1 => Except.ok { st1 with seen := c.id :: st1.seen }) = .ok st' := h
      cases hf : exceptFold (preplanArg recur c.call.fragment.outputs c.id) st inargs with
      | error e =>
          rw [hf] at h2
          exact Except.noConfusion (show (Except.error e : Except String PreplanState) = .ok st' from h2)
      | ok st1 =>
          rw [hf] at h2
          simp only [Except.bind, Except.ok.injEq] at h2
          have h1 := exceptFold_rel R hR.1 hR.2.1 _
            (fun s a s' hs => preplanArg_rel hR recur hrec c.call.fragment.outputs c.id s a s' hs)
            inargs st st1 hf
          exact h2 ▸ hR.2.1 _ _ _ h1 (hR.2.2.2.2.2.1 st1 c.id)

theorem preplanPlanner_rel {R : PreplanState → PreplanState → Prop} (hR : PreUpd R)
    (heap : Heap) :
    ∀ fuel pid st st', preplanPlanner heap fuel pid st = .ok st' → R st st' := by
  intro fuel
  induction fuel with
  | zero => intro pid st st' h; exact Except.noConfusion h
  | succ g ih =>
      intro pid st st' h
      simp only [preplanPlanner] at h
      by_cases hp : pid ∈ st.planners
      · rw [if_pos hp] at h; exact Except.noConfusion h
      · rw [if_neg hp] at h
        have h1 := exceptFold_rel R hR.1 hR.2.1 _
          (fun s a s' hs => preplanCmd_rel hR (preplanPlanner heap g)
            (fun q u u' hu => ih q u u' hu) s a s' hs)
          (plannerCommands heap pid) _ st' h
        exact hR.2.1 _ _ _ (hR.2.2.2.2.2.2 st pid) h1

/-- `_preplan` only adds to the `planners` set. -/
theorem preplan_planners_mono {heap : Heap} {fuel : Nat} {pid : PlannerId}
    {st st' : PreplanState} (h : preplanPlanner heap fuel pid st = .ok st') :
    st.planners ⊆ st'.planners :=
  preplanPlanner_rel (R := fun s t => s.planners ⊆ t.planners)
    ⟨fun _ => List.Subset.refl _, fun _ _ _ h1 h2 => h1.trans h2,
     fun _ _ _ => by simp, fun _ _ _ => by simp,
     fun _ _ ht => ht, fun _ _ => by simp,
     fun s p => List.subset_cons_of_subset _ (List.Subset.refl _)⟩ heap fuel pid st st' h

/-- `_preplan` only adds to the `seen` set. -/
theorem preplan_seen_mono {heap : Heap} {fuel : Nat} {pid : PlannerId}
    {st st' : PreplanState} (h : preplanPlanner heap fuel pid st = .ok st') :
    st.seen ⊆ st'.seen :=
  preplanPlanner_rel (R := fun s t => s.seen ⊆ t.seen)
    ⟨fun _ => List.Subset.refl _, fun _ _ _ h1 h2 => h1.trans h2,
     fun _ _ _ => by simp, fun _ _ _ => by simp,
     fun _ _ _ => List.Subset.refl _, fun s c => List.subset_cons_of_subset _ (List.Subset.refl _),
     fun _ _ => by simp⟩ heap fuel pid st st' h

/-- Keys present in `commandVisibility` stay present. -/
theorem preplan_cv_keys_mono {heap : Heap} {fuel : Nat} {pid : PlannerId}
    {st st' : PreplanState} (h : preplanPlanner heap fuel pid st = .ok st') :
    ∀ k, (lookupA st.commandVisibility k).isSome →
      (lookupA st'.commandVisibility k).isSome :=
  preplanPlanner_rel
    (R := fun s t => ∀ k, (lookupA s.commandVisibility k).isSome →
      (lookupA t.commandVisibility k).isSome)
    ⟨fun _ _ hk => hk, fun _ _ _ h1 h2 k hk => h2 k (h1 k hk),
     fun s k v k' hk' => by
       simp only [lookupA_insertUpdate]
       by_cases hkk : k' = k <;> simp [hkk, hk'],
     fun _ _ _ _ hk' => hk', fun _ _ ht => ht,
     fun _ _ _ hk => hk, fun _ _ _ hk => hk⟩ heap fuel pid st st' h

/-- Keys present in `literalVisibility` stay present. -/
theorem preplan_lv_keys_mono {heap : Heap} {fuel : Nat} {pid : PlannerId}
    {st st' : PreplanState} (h : preplanPlanner heap fuel pid st = .ok st') :
    ∀ k, (lookupA st.literalVisibility k).isSome →
      (lookupA st'.literalVisibility k).isSome :=
  preplanPlanner_rel
    (R := fun s t => ∀ k, (lookupA s.literalVisibility k).isSome →
      (lookupA t.literalVisibility k).isSome)
    ⟨fun _ _ hk => hk, fun _ _ _ h1 h2 k hk => h2 k (h1 k hk),
     fun _ _ _ _ hk' => hk',
     fun s k v k' hk' => by
       simp only [lookupA_insertUpdate]
       by_cases hkk : k' = k <;> simp [hkk, hk'],
     fun _ _ ht => ht, fun _ _ _ hk => hk, fun _ _ _ hk => hk⟩ heap fuel pid st st' h

/-- The `literalVisibility` key list stays duplicate-free. -/
theorem preplan_lv_keys_nodup {heap : Heap} {fuel : Nat} {pid : PlannerId}
    {st st' : PreplanState} (h : preplanPlanner heap fuel pid st = .ok st')
    (h0 : (st.literalVisibility.map Prod.fst).Nodup) :
    (st'.literalVisibility.map Prod.fst).Nodup :=
  preplanPlanner_rel
    (R := fun s t => (s.literalVisibility.map Prod.fst).Nodup →
      (t.literalVisibility.map Prod.fst).Nodup)
    ⟨fun _ hs => hs, fun _ _ _ h1 h2 hs => h2 (h1 hs),
     fun _ _ _ hs => hs, fun _ _ _ hs => insertUpdate_keys_nodup _ _ _ hs,
     fun _ _ ht => ht, fun _ _ hs => hs, fun _ _ hs => hs⟩ heap fuel pid st st' h h0

theorem preUpd_planners : PreUpd fun s t => s.planners ⊆ t.planners :=
  ⟨fun _ => List.Subset.refl _, fun _ _ _ h1 h2 => h1.trans h2,
   fun _ _ _ => by simp, fun _ _ _ => by simp, fun _ _ ht => ht, fun _ _ => by simp,
   fun _ _ => List.subset_cons_of_subset _ (List.Subset.refl _)⟩

/-! ### The cycle check: a planner reachable from itself never preplans -/

/-- Entering a planner already in the `planners` set never succeeds. -/
theorem preplanPlanner_ok_not_mem {heap : Heap} {fuel : Nat} {pid : PlannerId}
    {st st' : PreplanState} (h : preplanPlanner heap fuel pid st = .ok st') :
    pid ∉ st.planners := by
  cases fuel with
  | zero => exact Except.noConfusion h
  | succ g =>
      simp only [preplanPlanner] at h
      by_cases hp : pid ∈ st.planners
      · rw [if_pos hp] at h; exact Except.noConfusion h
      · exact hp

/-- The inargs of a call contain all of its declared arguments. -/
theorem mem_callInargs {call : FunctionCall} {inargs : List ArgValue} {arg : ArgValue}
    (h : callInargs call = .ok inargs) (ha : arg ∈ call.args) : arg ∈ inargs := by
  unfold callInargs at h
  split at h
  · cases hcv : call.callvalue with
    | none => rw [hcv] at h; exact Except.noConfusion h
    | some pv =>
        rw [hcv] at h
        obtain ⟨p, v⟩ := pv
        simp only [Except.ok.injEq] at h
        exact h ▸ List.mem_cons_of_mem _ ha
  · simp only [Except.ok.injEq] at h
    exact h ▸ ha

/-- If a successful argument fold contains a subplan argument, the recursive
analysis of that subplanner was invoked (from a state whose `planners` set
extends the initial one) and succeeded. -/
theorem argsFold_subplan_call {recur : PlannerId → PreplanState → Except String PreplanState}
    {outputs : List String} {cid : CommandId} {args : List ArgValue}
    {st st' : PreplanState} {q : PlannerId}
    (hrec : ∀ pid s s', recur pid s = .ok s' → s.planners ⊆ s'.planners)
    (h : exceptFold (preplanArg recur outputs cid) st args = .ok st')
    (hq : ArgValue.subplan q ∈ args) :
    ∃ s1 s2, st.planners ⊆ s1.planners ∧ recur q s1 = .ok s2 := by
  obtain ⟨s1, s2, h1, h2, _⟩ :=
    exceptFold_elem_rel (fun s t => s.planners ⊆ t.planners)
      (fun _ => List.Subset.refl _) (fun _ _ _ ha hb => ha.trans hb) _
      (fun s a s' hs => preplanArg_rel preUpd_planners recur hrec outputs cid s a s' hs)
      args st st' h (ArgValue.subplan q) hq
  simp only [preplanArg] at h2
  cases hr : recur q s1 with
  | error e =>
      rw [hr] at h2
      exact Except.noConfusion
        (show (Except.error e : Except String PreplanState) = .ok s2 from h2)
  | ok s3 => exact ⟨s1, s3, h1, hr⟩

/-- Command-level version of `argsFold_subplan_call`. -/
theorem preplanCmd_subplan_call {recur : PlannerId → PreplanState → Except String PreplanState}
    {st : PreplanState} {c : Command} {st' : PreplanState} {q : PlannerId}
    (hrec : ∀ pid s s', recur pid s = .ok s' → s.planners ⊆ s'.planners)
    (h : preplanCmd recur st c = .ok st') (hq : ArgValue.subplan q ∈ c.call.args) :
    ∃ s1 s2, st.planners ⊆ s1.planners ∧ recur q s1 = .ok s2 := by
  simp only [preplanCmd] at h
  cases hin : callInargs c.call with
  | error e =>
      rw [hin] at h
      exact Except.noConfusion
        (show (Except.error e : Except String PreplanState) = .ok st' from h)
  | ok inargs =>
      rw [hin] at h
      have h2 : (exceptFold (preplanArg recur c.call.fragment.outputs c.id) st inargs).bind
          (fun st1 => Except.ok { st1 with seen := c.id :: st1.seen }) = .ok st' := h
      cases hf : exceptFold (preplanArg recur c.call.fragment.outputs c.id) st inargs with
      | error e =>
          rw [hf] at h2
          exact Except.noConfusion
            (show (Except.error e : Except String PreplanState) = .ok st' from h2)
      | ok st1 => exact argsFold_subplan_call hrec hf (mem_callInargs hin hq)

/-- Fold-over-commands version of `argsFold_subplan_call`. -/
theorem cmdsFold_subplan_call {recur : PlannerId → PreplanState → Except String PreplanState}
    {st : PreplanState} {l : List Command} {st' : PreplanState} {c : Command} {q : PlannerId}
    (hrec : ∀ pid s s', recur pid s = .ok s' → s.planners ⊆ s'.planners)
    (h : exceptFold (preplanCmd recur) st l = .ok st')
    (hc : c ∈ l) (hq : ArgValue.subplan q ∈ c.call.args) :
    ∃ s1 s2, st.planners ⊆ s1.planners ∧ recur q s1 = .ok s2 := by
  obtain ⟨s1, s2, h1, h2, _⟩ :=
    exceptFold_elem_rel (fun s t => s.planners ⊆ t.planners)
      (fun _ => List.Subset.refl _) (fun _ _ _ ha hb => ha.trans hb) _
      (fun s a s' hs => preplanCmd_rel preUpd_planners recur hrec s a s' hs)
      l st st' h c hc
  obtain ⟨t1, t2, ht1, ht2⟩ := preplanCmd_subplan_call hrec h2 hq
  exact ⟨t1, t2, h1.trans ht1, ht2⟩

/-- A successful `_preplan` of planner `pid` rules out every planner that is
subplan-reachable from `pid` being `pid` itself or any already-visited
planner: the analysis enters each reachable planner with `pid` (and the
initial `planners`) recorded, and entry then requires non-membership. -/
theorem preplan_no_selfreach (heap : Heap) :
    ∀ fuel pid st st', preplanPlanner heap fuel pid st = .ok st' →
      ∀ q, SubReach heap pid q → q ∉ pid :: st.planners := by
  intro fuel
  induction fuel with
  | zero => intro pid st st' h; exact Except.noConfusion h
  | succ g ih =>
      intro pid st st' h q hr hmem
      simp only [preplanPlanner] at h
      by_cases hp : pid ∈ st.planners
      · rw [if_pos hp] at h; exact Except.noConfusion h
      rw [if_neg hp] at h
      have hmono : ∀ p s s', preplanPlanner heap g p s = .ok s' → s.planners ⊆ s'.planners :=
        fun p s s' hh => preplan_planners_mono hh
      cases hr with
      | step e =>
          obtain ⟨c, hc, hq⟩ := e
          obtain ⟨s1, s2, hsub, hcall⟩ := cmdsFold_subplan_call hmono h hc hq
          exact preplanPlanner_ok_not_mem hcall (hsub hmem)
      | head e hsr =>
          obtain ⟨c, hc, hq⟩ := e
          obtain ⟨s1, s2, hsub, hcall⟩ := cmdsFold_subplan_call hmono h hc hq
          exact ih _ s1 s2 hcall q hsr (List.mem_cons_of_mem _ (hsub hmem))

/-! ### Scope visibility through subplans -/

theorem preUpd_seen : PreUpd fun s t => s.seen ⊆ t.seen :=
  ⟨fun _ => List.Subset.refl _, fun _ _ _ h1 h2 => h1.trans h2,
   fun _ _ _ => by simp, fun _ _ _ => by simp, fun _ _ _ => List.Subset.refl _,
   fun _ _ => List.subset_cons_of_subset _ (List.Subset.refl _), fun _ _ => by simp⟩

/-- With no declared outputs (a read-only subplan's enclosing call), a
single argument step leaves `seen` untouched: subplan recursion results
have the caller's `seen` restored. -/
theorem preplanArg_readonly_seen {recur : PlannerId → PreplanState → Except String PreplanState}
    {cid : CommandId} {st : PreplanState} {arg : ArgValue} {st' : PreplanState}
    (h : preplanArg recur [] cid st arg = .ok st') : st'.seen = st.seen := by
  cases arg with
  | ret p rcid rname =>
      by_cases hm : rcid ∈ st.seen
      · simp only [preplanArg, if_pos hm, Except.ok.injEq] at h
        rw [← h]
      · simp only [preplanArg, if_neg hm] at h
        exact Except.noConfusion h
  | literal p v =>
      simp only [preplanArg, Except.ok.injEq] at h
      rw [← h]
  | state =>
      simp only [preplanArg, Except.ok.injEq] at h
      rw [← h]
  | subplan spid =>
      simp only [preplanArg] at h
      cases hr : recur spid st with
      | error e =>
          rw [hr] at h
          exact Except.noConfusion
            (show (Except.error e : Except String PreplanState) = .ok st' from h)
      | ok st1 =>
          rw [hr] at h
          have h2 : (if ([] : List String).isEmpty then
              (Except.ok { st1 with seen := st.seen } : Except String PreplanState)
            else .ok st1) = .ok st' := h
          simp only [List.isEmpty_nil, if_true, Except.ok.injEq] at h2
          rw [← h2]

/-- A successfully analysed command adds its own id to `seen`. -/
theorem preplanCmd_id_seen {recur : PlannerId → PreplanState → Except String PreplanState}
    {st : PreplanState} {c : Command} {st' : PreplanState}
    (h : preplanCmd recur st c = .ok st') : c.id ∈ st'.seen := by
  simp only [preplanCmd] at h
  cases hin : callInargs c.call with
  | error e =>
      rw [hin] at h
      exact Except.noConfusion
        (show (Except.error e : Except String PreplanState) = .ok st' from h)
  | ok inargs =>
      rw [hin] at h
      have h2 : (exceptFold (preplanArg recur c.call.fragment.outputs c.id) st inargs).bind
          (fun st1 => Except.ok { st1 with seen := c.id :: st1.seen }) = .ok st' := h
      cases hf : exceptFold (preplanArg recur c.call.fragment.outputs c.id) st inargs with
      | error e =>
          rw [hf] at h2
          exact Except.noConfusion
            (show (Except.error e : Except String PreplanState) = .ok st' from h2)
      | ok st1 =>
          rw [hf] at h2
          simp only [Except.bind, Except.ok.injEq] at h2
          rw [← h2]
          exact List.mem_cons_self _ _

/-- Every command of a successfully preplanned planner ends up in `seen`. -/
theorem preplanPlanner_ids_seen {heap : Heap} {fuel : Nat} {pid : PlannerId}
    {st st' : PreplanState} (h : preplanPlanner heap fuel pid st = .ok st') :
    ∀ c ∈ plannerCommands heap pid, c.id ∈ st'.seen := by
  intro c hc
  cases fuel with
  | zero => exact Except.noConfusion h
  | succ g =>
      simp only [preplanPlanner] at h
      by_cases hp : pid ∈ st.planners
      · rw [if_pos hp] at h; exact Except.noConfusion h
      rw [if_neg hp] at h
      obtain ⟨s1, s2, _, h2, h3⟩ :=
        exceptFold_elem_rel (fun s t => s.seen ⊆ t.seen)
          (fun _ => List.Subset.refl _) (fun _ _ _ ha hb => ha.trans hb) _
          (fun s a s' hs => preplanCmd_rel preUpd_seen (preplanPlanner heap g)
            (fun q u u' hu => preplan_seen_mono hu) s a s' hs)
          (plannerCommands heap pid) _ st' h c hc
      exact h3 (preplanCmd_id_seen h2)

/-! ### Preservation through `_buildCommands`

The encoder never touches `literalSlotMap` or `commandVisibility` and only
ever appends to `state`. -/

theorem emitCommand_preserves {c : Command} {ps : PS} {w : List Bytes} {ps1 : PS}
    (h : emitCommand c ps = .ok (w, ps1)) :
    ps1.literalSlotMap = ps.literalSlotMap ∧
    ps1.commandVisibility = ps.commandVisibility ∧
    ps.state <+: ps1.state := by
  unfold emitCommand at h
  cases hargs : buildCommandArgs c ps.returnSlotMap ps.literalSlotMap ps.state with
  | error e => rw [hargs] at h; exact Except.noConfusion h
  | ok args =>
      rw [hargs] at h
      simp only at h
      repeat' split at h
      all_goals try exact Except.noConfusion h
      all_goals try simp only [Except.ok.injEq, Prod.mk.injEq] at h
      all_goals
        refine ⟨by rw [← h.2], by rw [← h.2], ?_⟩
      all_goals
        rw [← h.2]
      all_goals
        first
          | exact List.prefix_refl _
          | exact ⟨[[]], rfl⟩

theorem buildCommands_preserves (heap : Heap) :
    ∀ fuel pid ps out ps', buildCommands heap fuel pid ps = .ok (out, ps') →
      ps'.literalSlotMap = ps.literalSlotMap ∧
      ps'.commandVisibility = ps.commandVisibility ∧
      ps.state <+: ps'.state := by
  intro fuel
  induction fuel with
  | zero => intro pid ps out ps' h; exact Except.noConfusion h
  | succ g ih =>
      intro pid ps out ps' h
      simp only [buildCommands] at h
      have := exceptFold_rel
        (fun (a b : List Bytes × PS) => b.2.literalSlotMap = a.2.literalSlotMap ∧
          b.2.commandVisibility = a.2.commandVisibility ∧ a.2.state <+: b.2.state)
        (fun _ => ⟨rfl, rfl, List.prefix_refl _⟩)
        (fun _ _ _ h1 h2 => ⟨h2.1.trans h1.1, h2.2.1.trans h1.2.1, h1.2.2.trans h2.2.2⟩)
        (buildCmd (buildCommands heap g)) ?_ (plannerCommands heap pid) ([], ps) (out, ps') h
      · exact this
      · intro acc c acc' hstep
        obtain ⟨enc, psa⟩ := acc
        obtain ⟨enc', psb⟩ := acc'
        simp only [buildCmd] at hstep
        cases hsub : subplanPhase (buildCommands heap g) c psa with
        | error e => rw [hsub] at hstep; exact Except.noConfusion hstep
        | ok psm =>
            rw [hsub] at hstep
            have hmid : psm.literalSlotMap = psa.literalSlotMap ∧
                psm.commandVisibility = psa.commandVisibility ∧ psa.state <+: psm.state := by
              unfold subplanPhase at hsub
              by_cases hty : c.type = .SUBPLAN
              · rw [if_pos hty] at hsub
                cases hfind : findSubplanArg c.call.args with
                | none => rw [hfind] at hsub; exact Except.noConfusion hsub
                | some spid =>
                    rw [hfind] at hsub
                    simp only at hsub
                    cases hrec : buildCommands heap g spid psa with
                    | error e => rw [hrec] at hsub; exact Except.noConfusion hsub
                    | ok r =>
                        obtain ⟨sub, psr⟩ := r
                        rw [hrec] at hsub
                        simp only [Except.ok.injEq] at hsub
                        obtain ⟨h1, h2, h3⟩ := ih spid psa sub psr hrec
                        subst hsub
                        exact ⟨h1, h2, h3.trans ⟨[flattenWords sub], rfl⟩⟩
              · rw [if_neg hty] at hsub
                simp only [Except.ok.injEq] at hsub
                subst hsub
                exact ⟨rfl, rfl, List.prefix_refl _⟩
            simp only at hstep
            cases hemit : emitCommand c psm with
            | error e => rw [hemit] at hstep; exact Except.noConfusion hstep
            | ok r =>
                obtain ⟨words, psn⟩ := r
                rw [hemit] at hstep
                simp only [Except.ok.injEq, Prod.mk.injEq] at hstep
                obtain ⟨e1, e2, e3⟩ := emitCommand_preserves hemit
                refine ⟨?_, ?_, ?_⟩
                · rw [← hstep.2]
                  exact e1.trans hmid.1
                · rw [← hstep.2]
                  exact e2.trans hmid.2.1
                · rw [← hstep.2]
                  exact hmid.2.2.trans e3

/-! ### The literal prepopulation loop -/

theorem prepop_state_eq :
    ∀ (lv : List (Bytes × CommandId)) (st0 : List Bytes) (lsm0 : List (Bytes × Nat))
      (exps0 : List (CommandId × List Nat)),
      (prepop lv st0 lsm0 exps0).1 = st0 ++ lv.map Prod.fst := by
  intro lv
  induction lv with
  | nil => intro st0 lsm0 exps0; simp [prepop]
  | cons p rest ih =>
      intro st0 lsm0 exps0
      obtain ⟨lit, lastCmd⟩ := p
      simp only [prepop, ih, List.map_cons]
      simp

theorem prepop_lookup_preserved :
    ∀ (lv : List (Bytes × CommandId)) (st0 : List Bytes) (lsm0 : List (Bytes × Nat))
      (exps0 : List (CommandId × List Nat)) (b : Bytes) (i : Nat),
      lookupA lsm0 b = some i → b ∉ lv.map Prod.fst →
      lookupA (prepop lv st0 lsm0 exps0).2.1 b = some i := by
  intro lv
  induction lv with
  | nil => intro st0 lsm0 exps0 b i h _; exact h
  | cons p rest ih =>
      intro st0 lsm0 exps0 b i h hb
      obtain ⟨lit, lastCmd⟩ := p
      simp only [List.map_cons, List.mem_cons, not_or] at hb
      simp only [prepop]
      refine ih _ _ _ b i ?_ hb.2
      rw [lookupA_insertUpdate, if_neg hb.1]
      exact h

theorem prepop_lookup :
    ∀ (lv : List (Bytes × CommandId)) (st0 : List Bytes) (lsm0 : List (Bytes × Nat))
      (exps0 : List (CommandId × List Nat)) (b : Bytes),
      (lv.map Prod.fst).Nodup → b ∈ lv.map Prod.fst →
      ∃ i, lookupA (prepop lv st0 lsm0 exps0).2.1 b = some i ∧
        i < (prepop lv st0 lsm0 exps0).1.length ∧
        (prepop lv st0 lsm0 exps0).1.getD i [] = b := by
  intro lv
  induction lv with
  | nil => intro st0 lsm0 exps0 b _ hmem; cases hmem
  | cons p rest ih =>
      intro st0 lsm0 exps0 b hnd hmem
      obtain ⟨lit, lastCmd⟩ := p
      simp only [List.map_cons, List.nodup_cons] at hnd
      simp only [List.map_cons, List.mem_cons] at hmem
      by_cases hlb : b = lit
      · subst hlb
        refine ⟨st0.length, ?_, ?_, ?_⟩
        · simp only [prepop]
          refine prepop_lookup_preserved rest _ _ _ b st0.length ?_ hnd.1
          rw [lookupA_insertUpdate, if_pos rfl]
        · rw [prepop_state_eq]
          simp only [List.length_append, List.map_cons, List.length_cons]
          omega
        · rw [prepop_state_eq, List.map_cons]
          rw [List.getD_eq_getElem?_getD, List.getElem?_append_right (Nat.le_refl _)]
          simp
      · rcases hmem with hmem | hmem
        · exact absurd hmem hlb
        · simp only [prepop]
          exact ih _ _ _ b hnd.2 hmem

theorem preUpd_lv_keys : PreUpd fun s t => ∀ k, (lookupA s.literalVisibility k).isSome →
    (lookupA t.literalVisibility k).isSome :=
  ⟨fun _ _ hk => hk, fun _ _ _ h1 h2 k hk => h2 k (h1 k hk),
   fun _ _ _ _ hk' => hk',
   fun s k v k' hk' => by
     simp only [lookupA_insertUpdate]
     by_cases hkk : k' = k <;> simp [hkk, hk'],
   fun _ _ ht => ht, fun _ _ _ hk => hk, fun _ _ _ hk => hk⟩

/-- A literal argument of any top-level command of a successfully
preplanned planner is recorded (keyed by its bytes) in `literalVisibility`. -/
theorem preplan_literal_recorded {heap : Heap} {fuel : Nat} {pid : PlannerId}
    {st st' : PreplanState} (h : preplanPlanner heap fuel pid st = .ok st')
    {c : Command} (hc : c ∈ plannerCommands heap pid) {p : String} {b : Bytes}
    (hb : ArgValue.literal p b ∈ c.call.args) :
    (lookupA st'.literalVisibility b).isSome := by
  cases fuel with
  | zero => exact Except.noConfusion h
  | succ g =>
      simp only [preplanPlanner] at h
      by_cases hp : pid ∈ st.planners
      · rw [if_pos hp] at h; exact Except.noConfusion h
      rw [if_neg hp] at h
      have hstepRel : ∀ s a s', preplanCmd (preplanPlanner heap g) s a = .ok s' →
          ∀ k, (lookupA s.literalVisibility k).isSome →
            (lookupA s'.literalVisibility k).isSome :=
        fun s a s' hs => preplanCmd_rel preUpd_lv_keys (preplanPlanner heap g)
          (fun q u u' hu => preplan_lv_keys_mono hu) s a s' hs
      obtain ⟨s1, s2, _, h2, h3⟩ :=
        exceptFold_elem_rel _ preUpd_lv_keys.1 preUpd_lv_keys.2.1 _
          hstepRel (plannerCommands heap pid) _ st' h c hc
      refine h3 b ?_
      simp only [preplanCmd] at h2
      cases hin : callInargs c.call with
      | error e =>
          rw [hin] at h2
          exact Except.noConfusion
            (show (Except.error e : Except String PreplanState) = .ok s2 from h2)
      | ok inargs =>
          rw [hin] at h2
          have h4 : (exceptFold (preplanArg (preplanPlanner heap g)
                c.call.fragment.outputs c.id) s1 inargs).bind
              (fun st1 => Except.ok { st1 with seen := c.id :: st1.seen }) = .ok s2 := h2
          cases hf : exceptFold (preplanArg (preplanPlanner heap g)
              c.call.fragment.outputs c.id) s1 inargs with
          | error e =>
              rw [hf] at h4
              exact Except.noConfusion
                (show (Except.error e : Except String PreplanState) = .ok s2 from h4)
          | ok st1 =>
              rw [hf] at h4
              simp only [Except.bind, Except.ok.injEq] at h4
              rw [← h4]
              obtain ⟨s3, s4, _, harg, hrest⟩ :=
                exceptFold_elem_rel _ preUpd_lv_keys.1 preUpd_lv_keys.2.1 _
                  (fun s a s' hs => preplanArg_rel preUpd_lv_keys (preplanPlanner heap g)
                    (fun q u u' hu => preplan_lv_keys_mono hu)
                    c.call.fragment.outputs c.id s a s' hs)
                  inargs s1 st1 hf (ArgValue.literal p b) (mem_callInargs hin hb)
              refine hrest b ?_
              simp only [preplanArg, Except.ok.injEq] at harg
              rw [← harg]
              simp [lookupA_insertUpdate]

/-! ### The addSubplan argument scan -/

theorem subplanArgCheck_ok_iff :
    ∀ (args : List ArgValue) (hs hst : Bool),
      (subplanArgCheck args hs hst).isOk = true ↔
        (args.countP isSubplanArg + (if hs then 1 else 0) ≤ 1 ∧
         args.countP isStateArg + (if hst then 1 else 0) ≤ 1) := by
  intro args
  induction args with
  | nil =>
      intro hs hst
      cases hs <;> cases hst <;> simp [subplanArgCheck, Except.isOk, Except.toBool]
  | cons arg rest ih =>
      intro hs hst
      cases arg with
      | subplan q =>
          cases hs with
          | true =>
              rw [show subplanArgCheck (ArgValue.subplan q :: rest) true hst =
                .error "Subplans can only take one planner argument" from rfl]
              simp only [Except.isOk, Except.toBool, List.countP_cons, isSubplanArg,
                if_pos rfl, if_true]
              simp
          | false =>
              rw [show subplanArgCheck (ArgValue.subplan q :: rest) false hst =
                subplanArgCheck rest true hst from rfl]
              rw [ih true hst]
              cases hst <;> simp [List.countP_cons, isSubplanArg, isStateArg] <;> omega
      | state =>
          cases hst with
          | true =>
              rw [show subplanArgCheck (ArgValue.state :: rest) hs true =
                .error "Subplans can only take one state argument" from rfl]
              simp only [Except.isOk, Except.toBool, List.countP_cons, isStateArg,
                if_pos rfl, if_true]
              simp
          | false =>
              rw [show subplanArgCheck (ArgValue.state :: rest) hs false =
                subplanArgCheck rest hs true from rfl]
              rw [ih hs true]
              cases hs <;> simp [List.countP_cons, isSubplanArg, isStateArg] <;> omega
      | literal p v =>
          rw [show subplanArgCheck (ArgValue.literal p v :: rest) hs hst =
            subplanArgCheck rest hs hst from rfl]
          rw [ih hs hst]
          simp [List.countP_cons, isSubplanArg, isStateArg]
      | ret p rcid rname =>
          rw [show subplanArgCheck (ArgValue.ret p rcid rname :: rest) hs hst =
            subplanArgCheck rest hs hst from rfl]
          rw [ih hs hst]
          simp [List.countP_cons, isSubplanArg, isStateArg]

theorem subplanArgCheck_result :
    ∀ (args : List ArgValue) (hs hst a b : Bool),
      subplanArgCheck args hs hst = .ok (a, b) →
      a = (hs || args.any isSubplanArg) ∧ b = (hst || args.any isStateArg) := by
  intro args
  induction args with
  | nil =>
      intro hs hst a b h
      simp only [subplanArgCheck, Except.ok.injEq, Prod.mk.injEq] at h
      simp [← h.1, ← h.2]
  | cons arg rest ih =>
      intro hs hst a b h
      cases arg with
      | subplan q =>
          cases hs with
          | true =>
              rw [show subplanArgCheck (ArgValue.subplan q :: rest) true hst =
                .error "Subplans can only take one planner argument" from rfl] at h
              exact Except.noConfusion h
          | false =>
              rw [show subplanArgCheck (ArgValue.subplan q :: rest) false hst =
                subplanArgCheck rest true hst from rfl] at h
              obtain ⟨h1, h2⟩ := ih true hst a b h
              simp [h1, h2, isSubplanArg, isStateArg]
      | state =>
          cases hst with
          | true =>
              rw [show subplanArgCheck (ArgValue.state :: rest) hs true =
                .error "Subplans can only take one state argument" from rfl] at h
              exact Except.noConfusion h
          | false =>
              rw [show subplanArgCheck (ArgValue.state :: rest) hs false =
                subplanArgCheck rest hs true from rfl] at h
              obtain ⟨h1, h2⟩ := ih hs true a b h
              simp [h1, h2, isSubplanArg, isStateArg]
      | literal p v =>
          rw [show subplanArgCheck (ArgValue.literal p v :: rest) hs hst =
            subplanArgCheck rest hs hst from rfl] at h
          obtain ⟨h1, h2⟩ := ih hs hst a b h
          simp [h1, h2, isSubplanArg, isStateArg]
      | ret p rcid rname =>
          rw [show subplanArgCheck (ArgValue.ret p rcid rname :: rest) hs hst =
            subplanArgCheck rest hs hst from rfl] at h
          obtain ⟨h1, h2⟩ := ih hs hst a b h
          simp [h1, h2, isSubplanArg, isStateArg]

/-! ### Slot liveness through the build loop -/

theorem segIds_eq_segIdsW (heap : Heap) (fuel : Nat) (l : List Command) :
    segIds heap fuel l = segIdsW (subIds heap fuel) l := rfl

theorem subIds_succ (heap : Heap) (fuel : Nat) (q : PlannerId) :
    subIds heap (fuel + 1) q = segIdsW (subIds heap fuel) (plannerCommands heap q) := rfl

theorem mem_segIdsW_self {ids : PlannerId → List CommandId} {l : List Command}
    {c : Command} (hc : c ∈ l) : c.id ∈ segIdsW ids l := by
  simp only [segIdsW, List.mem_flatMap]
  exact ⟨c, hc, List.mem_cons_self _ _⟩

theorem mem_segIdsW_sub {ids : PlannerId → List CommandId} {l : List Command}
    {c : Command} {q : PlannerId} {x : CommandId} (hc : c ∈ l)
    (hq : findSubplanArg c.call.args = some q) (hx : x ∈ ids q) :
    x ∈ segIdsW ids l := by
  simp only [segIdsW, List.mem_flatMap]
  refine ⟨c, hc, List.mem_cons_of_mem _ ?_⟩
  rw [hq]
  exact hx

theorem mem_segIdsW_rest {ids : PlannerId → List CommandId} {c : Command}
    {rest : List Command} {x : CommandId} (hx : x ∈ segIdsW ids rest) :
    x ∈ segIdsW ids (c :: rest) := by
  simp only [segIdsW, List.flatMap_cons, List.mem_append]
  exact Or.inr hx

theorem lookupD_appendExp_mem {α : Type} [DecidableEq α] {m : List (α × List Nat)}
    {k k' : α} {slots : List Nat} {s : Nat}
    (h : s ∈ lookupD (appendExp m k slots) k') :
    s ∈ lookupD m k' ∨ (k' = k ∧ s ∈ slots) := by
  unfold appendExp lookupD at h
  rw [lookupA_insertUpdate] at h
  by_cases hk : k' = k
  · subst hk
    rw [if_pos rfl] at h
    simp only [Option.getD_some, List.mem_append] at h
    rcases h with h | h
    · exact Or.inl h
    · exact Or.inr ⟨rfl, h⟩
  · rw [if_neg hk] at h
    exact Or.inl h

theorem slotPreserved_refl {s : Nat} {ps : PS} (hs : s < ps.state.length)
    (hfree : s ∉ ps.freeSlots) : SlotPreserved s ps ps :=
  ⟨fun _ hc => hc, hfree, fun _ hY => hY, hs, rfl⟩

theorem slotPreserved_trans {s : Nat} {ps ps1 ps2 : PS}
    (h1 : SlotPreserved s ps ps1) (h2 : SlotPreserved s ps1 ps2) :
    SlotPreserved s ps ps2 :=
  ⟨fun cid hc => h1.1 cid (h2.1 cid hc), h2.2.1,
   fun Y hY => h1.2.2.1 Y (h2.2.2.1 Y hY), h2.2.2.2.1,
   h2.2.2.2.2.trans h1.2.2.2.2⟩

/-- Emitting one command preserves a live slot `s`: `s` is a real slot, not
free, and not scheduled for release at this command. -/
theorem emitCommand_slot_preserved {c : Command} {ps : PS} {w : List Bytes}
    {psn : PS} {s : Nat} (h : emitCommand c ps = .ok (w, psn))
    (hs : s < ps.state.length) (hfree : s ∉ ps.freeSlots)
    (hexpc : s ∉ lookupD ps.stateExpirations c.id) :
    SlotPreserved s ps psn := by
  have hfreeCat : s ∉ ps.freeSlots ++ lookupD ps.stateExpirations c.id := by
    simp only [List.mem_append]
    rintro (h1 | h2)
    exacts [hfree h1, hexpc h2]
  unfold emitCommand at h
  cases hargs : buildCommandArgs c ps.returnSlotMap ps.literalSlotMap ps.state with
  | error e => rw [hargs] at h; exact Except.noConfusion h
  | ok args =>
      rw [hargs] at h
      simp only at h
      cases hcv : lookupA ps.commandVisibility c.id with
      | none =>
          rw [hcv] at h
          simp only at h
          repeat' split at h
          all_goals simp only [Except.ok.injEq, Prod.mk.injEq] at h
          all_goals rw [← h.2]
          all_goals exact ⟨fun _ hc => hc, hfreeCat, fun _ hY => hY, hs, rfl⟩
      | some expiry =>
          rw [hcv] at h
          simp only at h
          by_cases hty : c.type = .RAWCALL ∨ c.type = .SUBPLAN
          · rw [if_pos hty] at h
            exact Except.noConfusion h
          · rw [if_neg hty] at h
            cases hlast : (ps.freeSlots ++ lookupD ps.stateExpirations c.id).getLast? with
            | some t =>
                rw [hlast] at h
                simp only at h
                have hret : t ≠ s := fun he =>
                  hfreeCat (he ▸ List.mem_of_mem_getLast? hlast)
                have hfs : s ∉ (ps.freeSlots ++ lookupD ps.stateExpirations c.id).dropLast :=
                  fun hm => hfreeCat (List.mem_of_mem_dropLast hm)
                repeat' split at h
                all_goals simp only [Except.ok.injEq, Prod.mk.injEq] at h
                all_goals rw [← h.2]
                all_goals refine ⟨?_, hfs, ?_, ?_, ?_⟩
                all_goals first
                  | (intro cid hcid
                     rw [lookupA_insertUpdate] at hcid
                     by_cases hcc : cid = c.id
                     · rw [if_pos hcc] at hcid
                       exact absurd (Option.some.inj hcid) hret
                     · rw [if_neg hcc] at hcid
                       exact hcid)
                  | (intro Y hY
                     rcases lookupD_appendExp_mem hY with h' | ⟨-, h'⟩
                     · exact h'
                     · rw [List.mem_singleton] at h'
                       exact absurd h'.symm hret)
                  | exact hs
                  | (simp only [List.length_append, List.length_cons, List.length_nil]
                     omega)
                  | exact List.getD_append _ _ _ _ hs
                  | rfl
            | none =>
                rw [hlast] at h
                simp only at h
                have hret : ps.state.length ≠ s := by omega
                repeat' split at h
                all_goals simp only [Except.ok.injEq, Prod.mk.injEq] at h
                all_goals rw [← h.2]
                all_goals refine ⟨?_, hfreeCat, ?_, ?_, ?_⟩
                all_goals first
                  | (intro cid hcid
                     rw [lookupA_insertUpdate] at hcid
                     by_cases hcc : cid = c.id
                     · rw [if_pos hcc] at hcid
                       exact absurd (Option.some.inj hcid) hret
                     · rw [if_neg hcc] at hcid
                       exact hcid)
                  | (intro Y hY
                     rcases lookupD_appendExp_mem hY with h' | ⟨-, h'⟩
                     · exact h'
                     · rw [List.mem_singleton] at h'
                       exact absurd h'.symm hret)
                  | exact hs
                  | (simp only [List.length_append, List.length_cons, List.length_nil]
                     omega)
                  | exact List.getD_append _ _ _ _ hs
                  | rfl

/-- The build-loop fold preserves a live slot, given that the subplan
recursion does (with `ids q` overapproximating the command ids the
recursion into planner `q` can process). -/
theorem fold_slot_preserved (recur : PlannerId → PS → Except String (List Bytes × PS))
    (ids : PlannerId → List CommandId)
    (hrec : ∀ q ps sub psr s, recur q ps = .ok (sub, psr) →
      s < ps.state.length → s ∉ ps.freeSlots →
      (∀ Y, s ∈ lookupD ps.stateExpirations Y → Y ∉ ids q) →
      SlotPreserved s ps psr) :
    ∀ l enc0 ps out ps' s,
      exceptFold (buildCmd recur) (enc0, ps) l = .ok (out, ps') →
      s < ps.state.length → s ∉ ps.freeSlots →
      (∀ Y, s ∈ lookupD ps.stateExpirations Y → Y ∉ segIdsW ids l) →
      SlotPreserved s ps ps' := by
  intro l
  induction l with
  | nil =>
      intro enc0 ps out ps' s h hs hfree hexp
      simp only [exceptFold, Except.ok.injEq, Prod.mk.injEq] at h
      rw [← h.2]
      exact slotPreserved_refl hs hfree
  | cons c rest ihl =>
      intro enc0 ps out ps' s h hs hfree hexp
      simp only [exceptFold] at h
      cases hstep : buildCmd recur (enc0, ps) c with
      | error e => rw [hstep] at h; exact Except.noConfusion h
      | ok acc1 =>
          rw [hstep] at h
          obtain ⟨enc1, ps1⟩ := acc1
          have hstepPres : SlotPreserved s ps ps1 := by
            simp only [buildCmd] at hstep
            cases hsub : subplanPhase recur c ps with
            | error e => rw [hsub] at hstep; exact Except.noConfusion hstep
            | ok psm =>
                rw [hsub] at hstep
                simp only at hstep
                cases hemit : emitCommand c psm with
                | error e => rw [hemit] at hstep; exact Except.noConfusion hstep
                | ok r =>
                    obtain ⟨w, psn⟩ := r
                    rw [hemit] at hstep
                    simp only [Except.ok.injEq, Prod.mk.injEq] at hstep
                    have hsubPres : SlotPreserved s ps psm := by
                      unfold subplanPhase at hsub
                      by_cases hty : c.type = .SUBPLAN
                      · rw [if_pos hty] at hsub
                        cases hfind : findSubplanArg c.call.args with
                        | none => rw [hfind] at hsub; exact Except.noConfusion hsub
                        | some q =>
                            rw [hfind] at hsub
                            simp only at hsub
                            cases hr : recur q ps with
                            | error e => rw [hr] at hsub; exact Except.noConfusion hsub
                            | ok rr =>
                                obtain ⟨sub, psr⟩ := rr
                                rw [hr] at hsub
                                simp only [Except.ok.injEq] at hsub
                                have hPres1 : SlotPreserved s ps psr :=
                                  hrec q ps sub psr s hr hs hfree
                                    (fun Y hY hcontra => hexp Y hY
                                      (mem_segIdsW_sub (List.mem_cons_self c rest)
                                        hfind hcontra))
                                rw [← hsub]
                                refine slotPreserved_trans hPres1
                                  ⟨fun _ hc => hc, ?_, fun _ hY => hY, ?_, ?_⟩
                                · simp only [List.mem_append, List.mem_singleton]
                                  rintro (h1 | h2)
                                  · exact hPres1.2.1 h1
                                  · have hlen := hPres1.2.2.2.1
                                    simp only [List.length_append, List.length_cons,
                                      List.length_nil] at h2
                                    omega
                                · have hlen := hPres1.2.2.2.1
                                  simp only [List.length_append]
                                  omega
                                · exact List.getD_append _ _ _ _ hPres1.2.2.2.1
                      · rw [if_neg hty] at hsub
                        simp only [Except.ok.injEq] at hsub
                        rw [← hsub]
                        exact slotPreserved_refl hs hfree
                    have hexpc : s ∉ lookupD psm.stateExpirations c.id := fun hm =>
                      hexp c.id (hsubPres.2.2.1 c.id hm)
                        (mem_segIdsW_self (List.mem_cons_self c rest))
                    have hemitPres : SlotPreserved s psm psn :=
                      emitCommand_slot_preserved hemit hsubPres.2.2.2.1
                        hsubPres.2.1 hexpc
                    rw [← hstep.2]
                    exact slotPreserved_trans hsubPres hemitPres
          have hrest := ihl enc1 ps1 out ps' s h hstepPres.2.2.2.1 hstepPres.2.1
            (fun Y hY hc => hexp Y (hstepPres.2.2.1 Y hY) (mem_segIdsW_rest hc))
          exact slotPreserved_trans hstepPres hrest

/-- `_buildCommands`'s recursion preserves a live slot whose scheduled
releasers all lie outside the subplanner's reachable command ids. -/
theorem buildCommands_slot_preserved (heap : Heap) :
    ∀ (fuel : Nat) (q : PlannerId) (ps : PS) (sub : List Bytes) (psr : PS) (s : Nat),
      buildCommands heap fuel q ps = .ok (sub, psr) →
      s < ps.state.length → s ∉ ps.freeSlots →
      (∀ Y, s ∈ lookupD ps.stateExpirations Y → Y ∉ subIds heap fuel q) →
      SlotPreserved s ps psr := by
  intro fuel
  induction fuel with
  | zero => intro q ps sub psr s h; exact Except.noConfusion h
  | succ g IH =>
      intro q ps sub psr s h hs hfree hexp
      simp only [buildCommands] at h
      exact fold_slot_preserved (buildCommands heap g) (subIds heap g)
        (fun q' ps' sub' psr' s' hr hs' hfree' hexp' =>
          IH q' ps' sub' psr' s' hr hs' hfree' hexp')
        (plannerCommands heap q) [] ps sub psr s h hs hfree
        (fun Y hY hc => hexp Y hY (by rw [subIds_succ]; exact hc))

/-! ### Consumed RAWCALL/SUBPLAN commands -/

theorem preUpd_cv_keys : PreUpd fun s t => ∀ k, (lookupA s.commandVisibility k).isSome →
    (lookupA t.commandVisibility k).isSome :=
  ⟨fun _ _ hk => hk, fun _ _ _ h1 h2 k hk => h2 k (h1 k hk),
   fun s k v k' hk' => by
     simp only [lookupA_insertUpdate]
     by_cases hkk : k' = k <;> simp [hkk, hk'],
   fun _ _ _ _ hk' => hk',
   fun _ _ ht => ht, fun _ _ _ hk => hk, fun _ _ _ hk => hk⟩

/-- A return-value argument of any top-level command of a successfully
preplanned planner leaves its producing command recorded as a key of
`commandVisibility`. -/
theorem preplan_ret_recorded {heap : Heap} {fuel : Nat} {pid : PlannerId}
    {st st' : PreplanState} (h : preplanPlanner heap fuel pid st = .ok st')
    {c : Command} (hc : c ∈ plannerCommands heap pid) {p : String} {rid : CommandId}
    {nm : String} (hb : ArgValue.ret p rid nm ∈ c.call.args) :
    (lookupA st'.commandVisibility rid).isSome := by
  cases fuel with
  | zero => exact Except.noConfusion h
  | succ g =>
      simp only [preplanPlanner] at h
      by_cases hp : pid ∈ st.planners
      · rw [if_pos hp] at h; exact Except.noConfusion h
      rw [if_neg hp] at h
      have hstepRel : ∀ s a s', preplanCmd (preplanPlanner heap g) s a = .ok s' →
          ∀ k, (lookupA s.commandVisibility k).isSome →
            (lookupA s'.commandVisibility k).isSome :=
        fun s a s' hs => preplanCmd_rel preUpd_cv_keys (preplanPlanner heap g)
          (fun q u u' hu => preplan_cv_keys_mono hu) s a s' hs
      obtain ⟨s1, s2, _, h2, h3⟩ :=
        exceptFold_elem_rel _ preUpd_cv_keys.1 preUpd_cv_keys.2.1 _
          hstepRel (plannerCommands heap pid) _ st' h c hc
      refine h3 rid ?_
      simp only [preplanCmd] at h2
      cases hin : callInargs c.call with
      | error e =>
          rw [hin] at h2
          exact Except.noConfusion
            (show (Except.error e : Except String PreplanState) = .ok s2 from h2)
      | ok inargs =>
          rw [hin] at h2
          have h4 : (exceptFold (preplanArg (preplanPlanner heap g)
                c.call.fragment.outputs c.id) s1 inargs).bind
              (fun st1 => Except.ok { st1 with seen := c.id :: st1.seen }) = .ok s2 := h2
          cases hf : exceptFold (preplanArg (preplanPlanner heap g)
              c.call.fragment.outputs c.id) s1 inargs with
          | error e =>
              rw [hf] at h4
              exact Except.noConfusion
                (show (Except.error e : Except String PreplanState) = .ok s2 from h4)
          | ok st1 =>
              rw [hf] at h4
              simp only [Except.bind, Except.ok.injEq] at h4
              rw [← h4]
              obtain ⟨s3, s4, _, harg, hrest⟩ :=
                exceptFold_elem_rel _ preUpd_cv_keys.1 preUpd_cv_keys.2.1 _
                  (fun s a s' hs => preplanArg_rel preUpd_cv_keys (preplanPlanner heap g)
                    (fun q u u' hu => preplan_cv_keys_mono hu)
                    c.call.fragment.outputs c.id s a s' hs)
                  inargs s1 st1 hf (ArgValue.ret p rid nm) (mem_callInargs hin hb)
              refine hrest rid ?_
              by_cases hm : rid ∈ s3.seen
              · simp only [preplanArg, if_pos hm, Except.ok.injEq] at harg
                rw [← harg]
                simp [lookupA_insertUpdate]
              · simp only [preplanArg, if_neg hm] at harg
                exact Except.noConfusion harg

/-- The subplan prologue never changes `commandVisibility`. -/
theorem subplanPhase_cv_eq {heap : Heap} {g : Nat} {c : Command} {ps psm : PS}
    (h : subplanPhase (buildCommands heap g) c ps = .ok psm) :
    psm.commandVisibility = ps.commandVisibility := by
  unfold subplanPhase at h
  by_cases hty : c.type = .SUBPLAN
  · rw [if_pos hty] at h
    cases hfind : findSubplanArg c.call.args with
    | none => rw [hfind] at h; exact Except.noConfusion h
    | some spid =>
        rw [hfind] at h
        simp only at h
        cases hrec : buildCommands heap g spid ps with
        | error e => rw [hrec] at h; exact Except.noConfusion h
        | ok r =>
            obtain ⟨sub, psr⟩ := r
            rw [hrec] at h
            simp only [Except.ok.injEq] at h
            subst h
            exact (buildCommands_preserves heap g spid ps sub psr hrec).2.1
  · rw [if_neg hty] at h
    simp only [Except.ok.injEq] at h
    subst h
    rfl

/-- One step of the build loop never changes `commandVisibility`. -/
theorem buildCmd_cv_eq {heap : Heap} {g : Nat} {acc : List Bytes × PS} {c : Command}
    {acc' : List Bytes × PS} (h : buildCmd (buildCommands heap g) acc c = .ok acc') :
    acc'.2.commandVisibility = acc.2.commandVisibility := by
  simp only [buildCmd] at h
  cases hsub : subplanPhase (buildCommands heap g) c acc.2 with
  | error e => rw [hsub] at h; exact Except.noConfusion h
  | ok psm =>
      rw [hsub] at h
      simp only at h
      cases hemit : emitCommand c psm with
      | error e => rw [hemit] at h; exact Except.noConfusion h
      | ok r =>
          obtain ⟨w, psn⟩ := r
          rw [hemit] at h
          simp only [Except.ok.injEq] at h
          rw [← h]
          exact (emitCommand_preserves hemit).2.1.trans (subplanPhase_cv_eq hsub)

/-- A RAWCALL/SUBPLAN command whose id is a `commandVisibility` key cannot
be emitted. -/
theorem emitCommand_consumed_rawcall_fails {c : Command} {ps : PS}
    (hkey : (lookupA ps.commandVisibility c.id).isSome)
    (hty : c.type = .RAWCALL ∨ c.type = .SUBPLAN) :
    ∀ r, emitCommand c ps ≠ .ok r := by
  intro r hok
  unfold emitCommand at hok
  cases hargs : buildCommandArgs c ps.returnSlotMap ps.literalSlotMap ps.state with
  | error e => rw [hargs] at hok; exact Except.noConfusion hok
  | ok args =>
      rw [hargs] at hok
      simp only at hok
      obtain ⟨X, hX⟩ := Option.isSome_iff_exists.mp hkey
      rw [hX] at hok
      simp only at hok
      rw [if_pos hty] at hok
      exact Except.noConfusion hok

/-! ### Claim theorems -/

/-- C1 (code bug): `plan()` is NOT repeatable.  The first `plan()` on the
one-command planner `c1Heap` succeeds, but it leaves the planner in
`_preplan`'s mutable default `planners` set (`Globals`), so the second
`plan()` on the unmodified planner fails with "A planner cannot contain
itself" instead of returning the same `(commands, state)` pair. -/
theorem c1_second_plan_fails :
    plan c1Heap 5 0 ⟨[], []⟩ =
      .ok ((
        [addFrag.signature ++ [0] ++ [0, 1, 0xFF, 0xFF, 0xFF, 0xFF] ++ [0xFF] ++ mathAddr],
        [encUint 1, encUint 2]), ⟨[0], [0]⟩) ∧
    plan c1Heap 5 0 ⟨[0], [0]⟩ = .error "A planner cannot contain itself" := by
  constructor <;> decide

/-- C7: planning `sum = math.add(1,2); math.add(sum,3)` yields 2 commands
and the 3-literal state `[enc 1, enc 2, enc 3]`; the second instruction's
first argument slot byte (offset 5 of the word) is `1`, which is exactly
the return slot recorded for the first command in `returnSlotMap`. -/
theorem c7_second_command_reads_first_return :
    (planFull c7Heap 5 0 ⟨[], []⟩).map
      (fun r => (r.1.1.length, r.1.2, (r.1.1.getD 1 []).getD 5 999,
        lookupA r.2.1.returnSlotMap 0)) =
    .ok (2, [encUint 1, encUint 2, encUint 3], 1, some 1) := by
  decide

/-- C3 counterexample: planner 0 of `c3aHeap` transitively contains itself
(`SubReach c3aHeap 0 0`), yet `plan()` fails with the unbound-return error
for its first command, not with the cycle error the claim promises. -/
theorem c3_counterexample :
    SubReach c3aHeap 0 0 ∧
    plan c3aHeap 6 0 ⟨[], []⟩ = .error "Return value from 'add' is not visible here" ∧
    "Return value from 'add' is not visible here" ≠ "A planner cannot contain itself" := by
  refine ⟨SubReach.step ?_, by decide, by decide⟩
  refine ⟨⟨1, ⟨subAddr, 1, execFrag,
    [.literal "uint256" (encUint 7), .subplan 0, .state], none⟩, .SUBPLAN⟩, by decide, by decide⟩

/-- C3 (amended): a planner that transitively contains itself as a subplan
argument NEVER plans successfully — for every fuel bound the result is an
error, so the Python recursion (which the fuel models) cannot diverge:
entering any planner twice is cut off by the `planners` check.  When the
walk reaches the self-reference without tripping another planning error
first, the error is exactly "A planner cannot contain itself", as the
directly self-containing planner `c3bHeap` shows. -/
theorem c3_cyclic_planner_never_plans :
    (∀ heap fuel pid g r, SubReach heap pid pid → plan heap fuel pid g ≠ .ok r) ∧
    plan c3bHeap 6 0 ⟨[], []⟩ = .error "A planner cannot contain itself" := by
  constructor
  · intro heap fuel pid g r hreach hok
    unfold plan planFull at hok
    cases hpre : preplanPlanner heap fuel pid ⟨[], [], g.seen, g.planners⟩ with
    | error e => rw [hpre] at hok; exact Except.noConfusion hok
    | ok pre =>
        exact preplan_no_selfreach heap fuel pid _ pre hpre pid hreach (List.mem_cons_self _ _)
  · decide

/-- C3 witness: the directly self-containing planner of `c3bHeap` can never
produce a successful plan, at any fuel. -/
theorem c3_cyclic_planner_never_plans_witness :
    ∀ r, plan c3bHeap 6 0 ⟨[], []⟩ ≠ .ok r :=
  fun r => c3_cyclic_planner_never_plans.1 c3bHeap 6 0 ⟨[], []⟩ r
    (SubReach.step ⟨⟨0, ⟨subAddr, 1, exec2Frag, [.subplan 0, .state], none⟩, .SUBPLAN⟩,
      by decide, by decide⟩)

/-- C4 counterexample: in `c4Heap` the two `useBytes` calls (command ids 1
and 2) both pass the literal bytes `c4W`, and both encoded instructions
reference the same slot 0 — but the planned state holds those bytes TWICE
(length 3, `count c4W = 2`), because the serialized subplan appended at the
end is byte-identical to the literal, refuting "exactly one entry for those
bytes". -/
theorem c4_counterexample :
    (planFull c4Heap 6 0 ⟨[], []⟩).map
      (fun r => (r.1.2.count c4W, (r.1.1.getD 0 []).getD 5 999,
        (r.1.1.getD 1 []).getD 5 999, r.1.2.length)) =
    .ok (2, 0, 0, 3) := by
  decide

/-- C4 (amended): literal deduplication.  For any two commands of the
planned planner passing literal arguments with the same encoded bytes
(regardless of the declared type descriptors), the final state starts with
the literal prefix, which holds exactly ONE entry for those bytes; the
shared `literalSlotMap` (never modified during command building) maps the
bytes to that one slot `i`, within the prefix, and argument resolution —
which is how each instruction's slot bytes are produced — yields the same
index `i` for both (with bit `0x80` added exactly when the declared
descriptor is dynamic).  A state entry appended later (a return-value
placeholder or a serialized subplan) may coincidentally hold equal bytes,
which is what refutes the original "exactly one entry" phrasing. -/
theorem c4_literal_dedup_same_slot :
    ∀ heap fuel pid g res ps' gl (c1 c2 : Command) (p1 p2 : String) (b : Bytes),
      planFull heap fuel pid g = .ok (res, ps', gl) →
      c1 ∈ plannerCommands heap pid → c2 ∈ plannerCommands heap pid →
      ArgValue.literal p1 b ∈ c1.call.args → ArgValue.literal p2 b ∈ c2.call.args →
      ∃ i litState ext,
        ps'.state = litState ++ ext ∧ @List.count Bytes instBEqOfDecidableEq b litState = 1 ∧
        lookupA ps'.literalSlotMap b = some i ∧
        i < litState.length ∧ litState.getD i [] = b ∧
        (∀ rsm n, resolveArg rsm ps'.literalSlotMap n (.literal p1 b) =
            .ok (if isDynamicType p1 then i ||| 0x80 else i)) ∧
        (∀ rsm n, resolveArg rsm ps'.literalSlotMap n (.literal p2 b) =
            .ok (if isDynamicType p2 then i ||| 0x80 else i)) := by
  intro heap fuel pid g res ps' gl c1 c2 p1 p2 b hplan hc1 hc2 hb1 hb2
  unfold planFull at hplan
  cases hpre : preplanPlanner heap fuel pid ⟨[], [], g.seen, g.planners⟩ with
  | error e => rw [hpre] at hplan; exact Except.noConfusion hplan
  | ok pre =>
      rw [hpre] at hplan
      simp only at hplan
      rcases hpp : prepop pre.literalVisibility [] [] [] with ⟨state0, lsm0, exps0⟩
      rw [hpp] at hplan
      simp only at hplan
      cases hbuild : buildCommands heap fuel pid
          ⟨[], lsm0, [], exps0, pre.commandVisibility, state0⟩ with
      | error e => rw [hbuild] at hplan; exact Except.noConfusion hplan
      | ok r =>
          obtain ⟨enc, psf⟩ := r
          rw [hbuild] at hplan
          simp only [Except.ok.injEq, Prod.mk.injEq] at hplan
          obtain ⟨-, hps', -⟩ := hplan
          subst hps'
          have hnodup : (pre.literalVisibility.map Prod.fst).Nodup :=
            preplan_lv_keys_nodup hpre (by simp)
          have hrec1 := preplan_literal_recorded hpre hc1 hb1
          have hmem : b ∈ pre.literalVisibility.map Prod.fst :=
            mem_keys_of_lookupA_isSome _ _ hrec1
          obtain ⟨i, hli, hlt, hgd⟩ :=
            prepop_lookup pre.literalVisibility [] [] [] b hnodup hmem
          rw [hpp] at hli hlt hgd
          have hstate0 : state0 = pre.literalVisibility.map Prod.fst := by
            have := prepop_state_eq pre.literalVisibility [] [] []
            rw [hpp] at this
            simpa using this
          obtain ⟨hlsm, -, hpref⟩ := buildCommands_preserves heap fuel pid
            ⟨[], lsm0, [], exps0, pre.commandVisibility, state0⟩ enc psf hbuild
          obtain ⟨ext, hext⟩ := hpref
          have hlook : lookupA psf.literalSlotMap b = some i := by rw [hlsm]; exact hli
          have hres : ∀ (pp : String) (rsm : List (CommandId × Nat)) (n : Nat),
              resolveArg rsm psf.literalSlotMap n (.literal pp b) =
                .ok (if isDynamicType pp then i ||| 0x80 else i) := by
            intro pp rsm n
            simp only [resolveArg, ArgValue.param, hlook]
            split <;> rfl
          refine ⟨i, state0, ext, hext.symm, ?_, hlook, hlt, hgd, hres p1, hres p2⟩
          rw [hstate0]
          exact List.count_eq_one_of_mem hnodup hmem

/-- C4 witness: instantiating the dedup theorem on `c4Heap` itself: the
two `useBytes` commands share slot 0 for `c4W` and the literal prefix
holds `c4W` exactly once (the second, equal entry lies in the appended
serialized-subplan suffix). -/
theorem c4_literal_dedup_same_slot_witness :
    ∃ res ps' gl, planFull c4Heap 6 0 ⟨[], []⟩ = .ok (res, ps', gl) ∧
      ∃ i litState ext, ps'.state = litState ++ ext ∧
        @List.count Bytes instBEqOfDecidableEq c4W litState = 1 ∧
        lookupA ps'.literalSlotMap c4W = some i := by
  have hok : (planFull c4Heap 6 0 ⟨[], []⟩).isOk = true := by decide
  cases hplan : planFull c4Heap 6 0 ⟨[], []⟩ with
  | error e => rw [hplan] at hok; exact absurd hok (by simp [Except.isOk, Except.toBool])
  | ok r =>
      obtain ⟨res, ps', gl⟩ := r
      obtain ⟨i, litState, ext, h1, h2, h3, -⟩ :=
        c4_literal_dedup_same_slot c4Heap 6 0 ⟨[], []⟩ res ps' gl
          ⟨1, ⟨mathAddr, 0, useBytesFrag, [.literal "bytes32" c4W], none⟩, .CALL⟩
          ⟨2, ⟨mathAddr, 0, useBytesFrag, [.literal "bytes32" c4W], none⟩, .CALL⟩
          "bytes32" "bytes32" c4W hplan (by decide) (by decide) (by decide) (by decide)
      exact ⟨res, ps', gl, rfl, i, litState, ext, h1, h2, h3⟩

/-- C5: scope hiding of subplan return values.  (1) A command enclosing a
read-only subplan (no declared output type) leaves `seen` exactly as it
found it, plus itself: every return value produced inside the subplan is
invisible afterwards, in the parent scope and in sibling subplans.  (2) A
command declaring a `bytes[]` output shares `seen` with its subplan, so
every command of the subplanner remains visible after it.  (3) Referencing
a return value whose producing command is not in `seen` fails with the
unbound-return error; (4) referencing one that is in `seen` is accepted
(it only records the consumer in `commandVisibility`). -/
theorem c5_subplan_scope_visibility :
    (∀ heap fuel st c st', c.call.fragment.outputs = [] →
        preplanCmd (preplanPlanner heap fuel) st c = .ok st' →
        st'.seen = c.id :: st.seen) ∧
    (∀ heap fuel st c st' q, c.call.fragment.outputs = ["bytes[]"] →
        ArgValue.subplan q ∈ c.call.args →
        preplanCmd (preplanPlanner heap fuel) st c = .ok st' →
        ∀ c' ∈ plannerCommands heap q, c'.id ∈ st'.seen) ∧
    (∀ recur outputs cid st p rcid rname, rcid ∉ st.seen →
        preplanArg recur outputs cid st (.ret p rcid rname) =
          .error ("Return value from '" ++ rname ++ "' is not visible here")) ∧
    (∀ recur outputs cid st p rcid rname, rcid ∈ st.seen →
        preplanArg recur outputs cid st (.ret p rcid rname) =
          .ok { st with commandVisibility := insertUpdate st.commandVisibility rcid cid }) := by
  refine ⟨?_, ?_, ?_, ?_⟩
  · intro heap fuel st c st' houts h
    simp only [preplanCmd, houts] at h
    cases hin : callInargs c.call with
    | error e =>
        rw [hin] at h
        exact Except.noConfusion
          (show (Except.error e : Except String PreplanState) = .ok st' from h)
    | ok inargs =>
        rw [hin] at h
        have h2 : (exceptFold (preplanArg (preplanPlanner heap fuel) [] c.id) st inargs).bind
            (fun st1 => Except.ok { st1 with seen := c.id :: st1.seen }) = .ok st' := h
        cases hf : exceptFold (preplanArg (preplanPlanner heap fuel) [] c.id) st inargs with
        | error e =>
            rw [hf] at h2
            exact Except.noConfusion
              (show (Except.error e : Except String PreplanState) = .ok st' from h2)
        | ok st1 =>
            rw [hf] at h2
            simp only [Except.bind, Except.ok.injEq] at h2
            have hseen : st1.seen = st.seen :=
              exceptFold_rel (fun (a b : PreplanState) => b.seen = a.seen) (fun _ => rfl)
                (fun _ _ _ hab hbc => Eq.trans hbc hab) _
                (fun s a s' hs => preplanArg_readonly_seen hs) inargs st st1 hf
            rw [← h2, hseen]
  · intro heap fuel st c st' q houts hq h
    intro c' hc'
    simp only [preplanCmd] at h
    cases hin : callInargs c.call with
    | error e =>
        rw [hin] at h
        exact Except.noConfusion
          (show (Except.error e : Except String PreplanState) = .ok st' from h)
    | ok inargs =>
        rw [hin] at h
        have h2 : (exceptFold (preplanArg (preplanPlanner heap fuel)
              c.call.fragment.outputs c.id) st inargs).bind
            (fun st1 => Except.ok { st1 with seen := c.id :: st1.seen }) = .ok st' := h
        cases hf : exceptFold (preplanArg (preplanPlanner heap fuel)
            c.call.fragment.outputs c.id) st inargs with
        | error e =>
            rw [hf] at h2
            exact Except.noConfusion
              (show (Except.error e : Except String PreplanState) = .ok st' from h2)
        | ok st1 =>
            rw [hf] at h2
            simp only [Except.bind, Except.ok.injEq] at h2
            obtain ⟨s1, s2, _, harg, hrest⟩ :=
              exceptFold_elem_rel (fun s t => s.seen ⊆ t.seen)
                (fun _ => List.Subset.refl _) (fun _ _ _ ha hb => ha.trans hb) _
                (fun s a s' hs => preplanArg_rel preUpd_seen (preplanPlanner heap fuel)
                  (fun p u u' hu => preplan_seen_mono hu) c.call.fragment.outputs c.id
                  s a s' hs)
                inargs st st1 hf (ArgValue.subplan q) (mem_callInargs hin hq)
            simp only [preplanArg] at harg
            cases hr : preplanPlanner heap fuel q s1 with
            | error e =>
                rw [hr] at harg
                exact Except.noConfusion
                  (show (Except.error e : Except String PreplanState) = .ok s2 from harg)
            | ok s3 =>
                rw [hr] at harg
                have h3 : (if c.call.fragment.outputs.isEmpty then
                    (Except.ok { s3 with seen := s1.seen } : Except String PreplanState)
                  else .ok s3) = .ok s2 := harg
                rw [houts] at h3
                simp only [List.isEmpty_cons, Bool.false_eq_true, if_false,
                  Except.ok.injEq] at h3
                have hid : c'.id ∈ s3.seen := preplanPlanner_ids_seen hr c' hc'
                rw [← h2]
                exact List.mem_cons_of_mem _ (hrest (h3 ▸ hid))
  · intro recur outputs cid st p rcid rname hm
    simp [preplanArg, hm]
  · intro recur outputs cid st p rcid rname hm
    simp [preplanArg, hm]

/-- C5 witness: analysing the read-only subplan command of `c5aHeap` from a
fresh scope leaves only the command itself visible (`seen = [1]`, the inner
producer id 0 hidden) and the later reference to it fails with the
unbound-return error, while the `bytes[]` variant (`c5bHeap`) keeps the
inner command visible and the whole program plans successfully. -/
theorem c5_subplan_scope_visibility_witness :
    (∃ st', preplanCmd (preplanPlanner c5aHeap 5) ⟨[], [], [], [0]⟩
        ⟨1, ⟨subAddr, 1, roExecFrag, [.subplan 1, .state], none⟩, .SUBPLAN⟩ = .ok st' ∧
      st'.seen = [1]) ∧
    (∃ st', preplanCmd (preplanPlanner c5bHeap 5) ⟨[], [], [], [0]⟩
        ⟨1, ⟨subAddr, 1, exec2Frag, [.subplan 1, .state], none⟩, .SUBPLAN⟩ = .ok st' ∧
      0 ∈ st'.seen) ∧
    plan c5aHeap 6 0 ⟨[], []⟩ = .error "Return value from 'add' is not visible here" ∧
    (plan c5bHeap 6 0 ⟨[], []⟩).isOk = true ∧
    preplanArg (preplanPlanner c5aHeap 5) ["uint256"] 2 ⟨[], [], [1], [0, 1]⟩
      (.ret "uint256" 0 "add") = .error "Return value from 'add' is not visible here" := by
  have h1 : preplanCmd (preplanPlanner c5aHeap 5) ⟨[], [], [], [0]⟩
      ⟨1, ⟨subAddr, 1, roExecFrag, [.subplan 1, .state], none⟩, .SUBPLAN⟩ =
      .ok ⟨[], [(encUint 1, 0), (encUint 2, 0)], [1], [1, 0]⟩ := by decide
  have h2 : preplanCmd (preplanPlanner c5bHeap 5) ⟨[], [], [], [0]⟩
      ⟨1, ⟨subAddr, 1, exec2Frag, [.subplan 1, .state], none⟩, .SUBPLAN⟩ =
      .ok ⟨[], [(encUint 1, 0), (encUint 2, 0)], [1, 0], [1, 0]⟩ := by decide
  refine ⟨⟨_, h1, ?_⟩, ⟨_, h2, ?_⟩, by decide, by decide,
    c5_subplan_scope_visibility.2.2.1 (preplanPlanner c5aHeap 5) ["uint256"] 2
      ⟨[], [], [1], [0, 1]⟩ "uint256" 0 "add" (by decide)⟩
  · exact c5_subplan_scope_visibility.1 c5aHeap 5 ⟨[], [], [], [0]⟩
      ⟨1, ⟨subAddr, 1, roExecFrag, [.subplan 1, .state], none⟩, .SUBPLAN⟩ _ rfl h1
  · have := c5_subplan_scope_visibility.2.1 c5bHeap 5 ⟨[], [], [], [0]⟩
      ⟨1, ⟨subAddr, 1, exec2Frag, [.subplan 1, .state], none⟩, .SUBPLAN⟩ _ 1 rfl
      (by decide) h2
    exact this ⟨0, addCall (.literal "uint256" (encUint 1))
      (.literal "uint256" (encUint 2)), .CALL⟩ (by decide)

/-- C6 counterexample: a subplan call declaring two outputs
(`["uint256", "uint256"]`) is ACCEPTED by `addSubplan` (the output check
only fires on exactly one non-`bytes[]` output), refuting "any other
declared return shape, including multiple outputs, is rejected". -/
theorem c6_counterexample :
    Planner.addSubplan ⟨[]⟩ 0 c6MultiCall = .ok ⟨[⟨0, c6MultiCall, .SUBPLAN⟩]⟩ := by
  decide

/-- C6 (amended): `addSubplan` acceptance is characterised by: exactly one
`Subplan` argument, exactly one `State` argument, and NOT exactly-one
non-`bytes[]` declared output.  In particular a multi-output declaration is
ACCEPTED (the original claim's "any other declared return shape, including
multiple outputs, is rejected" fails, see the counterexample); every
rejection happens before the command is appended (the planner value is
returned only on success, and then with exactly the one appended SUBPLAN
command). -/
theorem c6_addSubplan_validation :
    ∀ (p : Planner) (cid : CommandId) (call : FunctionCall),
      ((Planner.addSubplan p cid call).isOk = true ↔
        (call.args.countP isSubplanArg = 1 ∧ call.args.countP isStateArg = 1 ∧
          ¬(call.fragment.outputs.length = 1 ∧
            call.fragment.outputs.head? ≠ some "bytes[]"))) ∧
      (∀ p', Planner.addSubplan p cid call = .ok p' →
        p'.commands = p.commands ++ [⟨cid, call, .SUBPLAN⟩]) := by
  intro p cid call
  have hiff := subplanArgCheck_ok_iff call.args false false
  simp only [if_neg (by simp : ¬ (false = true)), Nat.add_zero] at hiff
  constructor
  · cases hchk : subplanArgCheck call.args false false with
    | error e =>
        rw [hchk] at hiff
        simp only [Except.isOk, Except.toBool] at hiff
        have hErr : Planner.addSubplan p cid call = .error e := by
          unfold Planner.addSubplan
          rw [hchk]
          rfl
        constructor
        · intro hok
          exfalso
          rw [hErr] at hok
          simp [Except.isOk, Except.toBool] at hok
        · rintro ⟨h1, h2, -⟩
          exact absurd (hiff.mpr ⟨by omega, by omega⟩) (by simp)
    | ok ab =>
        obtain ⟨a, b⟩ := ab
        rw [hchk] at hiff
        simp only [Except.isOk, Except.toBool, true_iff] at hiff
        obtain ⟨ha, hb⟩ := subplanArgCheck_result call.args false false a b hchk
        simp only [Bool.false_or] at ha hb
        have hred : Planner.addSubplan p cid call =
            (if ¬ a = true ∨ ¬ b = true then
              .error "Subplans must take planner and state arguments"
            else if call.fragment.outputs.length = 1 ∧
                call.fragment.outputs.head? ≠ some "bytes[]" then
              .error "Subplans must return a bytes[] replacement state or nothing"
            else .ok ⟨p.commands ++ [⟨cid, call, .SUBPLAN⟩]⟩) := by
          unfold Planner.addSubplan
          rw [hchk]
          rfl
        cases a with
        | false =>
            rw [hred]
            simp only [Bool.false_eq_true, not_false_eq_true, true_or, if_true]
            simp only [Except.isOk, Except.toBool, Bool.false_eq_true, false_iff]
            rintro ⟨h1, -, -⟩
            have : call.args.any isSubplanArg = false := ha.symm
            rw [List.any_eq_false] at this
            have hz : call.args.countP isSubplanArg = 0 :=
              List.countP_eq_zero.mpr this
            omega
        | true =>
          cases b with
          | false =>
              rw [hred]
              simp only [Bool.false_eq_true, not_false_eq_true, or_true, if_true]
              simp only [Except.isOk, Except.toBool, Bool.false_eq_true, false_iff]
              rintro ⟨-, h2, -⟩
              have : call.args.any isStateArg = false := hb.symm
              rw [List.any_eq_false] at this
              have hz : call.args.countP isStateArg = 0 :=
                List.countP_eq_zero.mpr this
              omega
          | true =>
              rw [hred]
              simp only [not_true_eq_false, or_self, if_false]
              have hpos1 : 0 < call.args.countP isSubplanArg := by
                rw [List.countP_pos]
                rw [eq_comm, List.any_eq_true] at ha
                exact ha
              have hpos2 : 0 < call.args.countP isStateArg := by
                rw [List.countP_pos]
                rw [eq_comm, List.any_eq_true] at hb
                exact hb
              by_cases hout : call.fragment.outputs.length = 1 ∧
                  call.fragment.outputs.head? ≠ some "bytes[]"
              · rw [if_pos hout]
                simp only [Except.isOk, Except.toBool, Bool.false_eq_true, false_iff]
                rintro ⟨-, -, hno⟩
                exact hno hout
              · rw [if_neg hout]
                simp only [Except.isOk, Except.toBool, eq_self_iff_true, true_iff]
                exact ⟨by omega, by omega, hout⟩
  · intro p' hp'
    unfold Planner.addSubplan at hp'
    cases hchk : subplanArgCheck call.args false false with
    | error e => rw [hchk] at hp'; exact Except.noConfusion hp'
    | ok ab =>
        obtain ⟨a, b⟩ := ab
        rw [hchk] at hp'
        have hp2 : (if ¬ a = true ∨ ¬ b = true then
            (.error "Subplans must take planner and state arguments" :
              Except String Planner)
          else if call.fragment.outputs.length = 1 ∧
              call.fragment.outputs.head? ≠ some "bytes[]" then
            .error "Subplans must return a bytes[] replacement state or nothing"
          else .ok ⟨p.commands ++ [⟨cid, call, .SUBPLAN⟩]⟩) = .ok p' := hp'
        split at hp2
        · exact Except.noConfusion hp2
        · split at hp2
          · exact Except.noConfusion hp2
          · simp only [Except.ok.injEq] at hp2
            rw [← hp2]

/-- C6 witness: a well-shaped `bytes[]`-returning subplan call is accepted
and appended as the single SUBPLAN command. -/
theorem c6_addSubplan_validation_witness :
    (Planner.addSubplan ⟨[]⟩ 0 ⟨subAddr, 1, exec2Frag, [.subplan 1, .state], none⟩).isOk
      = true ∧
    Planner.addSubplan ⟨[]⟩ 0 ⟨subAddr, 1, exec2Frag, [.subplan 1, .state], none⟩ =
      .ok ⟨[⟨0, ⟨subAddr, 1, exec2Frag, [.subplan 1, .state], none⟩, .SUBPLAN⟩]⟩ :=
  ⟨(c6_addSubplan_validation ⟨[]⟩ 0 _).1.mpr ⟨by decide, by decide, by decide⟩, by decide⟩

/-- C9 counterexample: `c9aHeap` contains a RAWCALL whose return value is
consumed by a later command, yet `plan()` fails with an earlier unbound-
return error, not with the ambiguous-consumption message the claim names. -/
theorem c9_counterexample :
    plan c9aHeap 6 0 ⟨[], []⟩ = .error "Return value from 'ghost' is not visible here" ∧
    "Return value from 'ghost' is not visible here" ≠
      "Return value of useState cannot be used to replace state and in another function" := by
  constructor <;> decide

/-- C2: liveness correctness of the slot allocator.  Take a state slot `s`
holding a live value when `_buildCommands`'s loop reaches a segment `l` of
commands: `s` is a real slot, `s` is not on the free list, and every command
recorded to release `s` (the value's consumers, via `stateExpirations`) lies
beyond the command ids the segment can process — i.e. the segment runs
before the value's last consumer.  Then after the segment: no command of the
segment (or of a subplan it built) had its return value assigned to `s`, `s`
never entered the free list — so no literal or return value was newly placed
in `s` —, `s` acquired no new release entry, the slot still exists, and its
contents are byte-for-byte untouched. -/
theorem c2_live_slot_not_reused (heap : Heap) (fuel : Nat) (l : List Command)
    (enc0 out : List Bytes) (ps ps' : PS) (s : Nat)
    (h : exceptFold (buildCmd (buildCommands heap fuel)) (enc0, ps) l = .ok (out, ps'))
    (hs : s < ps.state.length) (hfree : s ∉ ps.freeSlots)
    (hlive : ∀ Y, s ∈ lookupD ps.stateExpirations Y → Y ∉ segIds heap fuel l) :
    (∀ cid, lookupA ps'.returnSlotMap cid = some s →
      lookupA ps.returnSlotMap cid = some s) ∧
    s ∉ ps'.freeSlots ∧
    (∀ Y, s ∈ lookupD ps'.stateExpirations Y → s ∈ lookupD ps.stateExpirations Y) ∧
    s < ps'.state.length ∧
    ps'.state.getD s [] = ps.state.getD s [] :=
  fold_slot_preserved (buildCommands heap fuel) (subIds heap fuel)
    (fun q pps sub psr ss hr hss hfrees hexps =>
      buildCommands_slot_preserved heap fuel q pps sub psr ss hr hss hfrees hexps)
    l enc0 ps out ps' s h hs hfree
    (fun Y hY hc => hlive Y hY (by rw [segIds_eq_segIdsW]; exact hc))

/-- C2 witness: in `c2Heap` (`s1 = add(1,2); s2 = add(3,4); add(s1,s2)`),
slot 1 — holding `s1` right after command 0, consumed only by command 2 —
survives the emission of the middle command 1 untouched. -/
theorem c2_live_slot_not_reused_witness :
    ∃ out psf,
      exceptFold (buildCmd (buildCommands c2Heap 6)) ([], c2MidPS) [c2MidCmd] =
        .ok (out, psf) ∧
      (∀ cid, lookupA psf.returnSlotMap cid = some 1 →
        lookupA c2MidPS.returnSlotMap cid = some 1) ∧
      1 ∉ psf.freeSlots ∧ 1 < psf.state.length ∧
      psf.state.getD 1 [] = c2MidPS.state.getD 1 [] := by
  have hok : (exceptFold (buildCmd (buildCommands c2Heap 6))
      ([], c2MidPS) [c2MidCmd]).isOk = true := by decide
  cases hfold : exceptFold (buildCmd (buildCommands c2Heap 6)) ([], c2MidPS) [c2MidCmd] with
  | error e =>
      rw [hfold] at hok
      exact absurd hok (by simp [Except.isOk, Except.toBool])
  | ok r =>
      obtain ⟨out, psf⟩ := r
      have hseg : segIds c2Heap 6 [c2MidCmd] = [1] := by decide
      obtain ⟨h1, h2, -, h4, h5⟩ :=
        c2_live_slot_not_reused c2Heap 6 [c2MidCmd] [] out c2MidPS psf 1 hfold
          (by decide) (by decide)
          (by
            intro Y hY hc
            rw [hseg, List.mem_singleton] at hc
            subst hc
            exact absurd hY (by decide))
      exact ⟨out, psf, rfl, h1, h2, h4, h5⟩

/-- C8: with the `EXTENDED_COMMAND` bit clear on the call's own flags, a
command whose resolved argument list has at most 6 entries is emitted as one
standard word — selector, flags, argument slots padded to 6 with 0xFF,
return-slot byte, address — and a command with 7 or more resolved arguments
is emitted with the `EXTENDED_COMMAND` flag set as two words: a header whose
six argument bytes are all 0xFF and a continuation word of argument slots
padded to 32 with 0xFF; with a 4-byte selector and a 20-byte address every
emitted word is 32 bytes long (at most 32 resolved arguments). -/
theorem c8_extended_threshold (c : Command) (ps : PS) (args : List Nat)
    (ws : List Bytes) (ps1 : PS)
    (hext0 : c.call.flags &&& EXTENDED_COMMAND = 0)
    (hargs : buildCommandArgs c ps.returnSlotMap ps.literalSlotMap ps.state = .ok args)
    (hok : emitCommand c ps = .ok (ws, ps1)) :
    (args.length ≤ 6 → ∃ rb, ws =
      [c.call.fragment.signature ++ [c.call.flags] ++ padArray args 6 0xFF ++ [rb] ++
        c.call.address]) ∧
    (6 < args.length → ∃ rb, ws =
      [c.call.fragment.signature ++ [c.call.flags ||| EXTENDED_COMMAND] ++
         List.replicate 6 0xFF ++ [rb] ++ c.call.address,
       padArray args 32 0xFF]) ∧
    (c.call.fragment.signature.length = 4 → c.call.address.length = 20 →
      args.length ≤ 32 → ∀ w ∈ ws, w.length = 32) := by
  unfold emitCommand at hok
  rw [hargs] at hok
  simp only at hok
  by_cases h6 : args.length > 6
  · have hcond : (c.call.flags ||| EXTENDED_COMMAND) &&& EXTENDED_COMMAND =
        EXTENDED_COMMAND := by
      rw [Nat.and_distrib_right, hext0]
      decide
    simp only [if_pos h6, if_pos hcond] at hok
    repeat' split at hok
    all_goals try exact Except.noConfusion hok
    all_goals simp only [Except.ok.injEq, Prod.mk.injEq] at hok
    all_goals refine ⟨fun hle => absurd h6 (by omega), fun _ => ⟨_, hok.1.symm⟩,
      fun h4 h20 h32 w hw => ?_⟩
    all_goals rw [← hok.1] at hw
    all_goals simp only [List.mem_cons, List.not_mem_nil, or_false] at hw
    all_goals rcases hw with hw | hw
    all_goals subst hw
    all_goals simp [padArray, h4, h20]
    all_goals omega
  · have hcond : ¬(c.call.flags &&& EXTENDED_COMMAND = EXTENDED_COMMAND) := by
      rw [hext0]
      decide
    simp only [if_neg h6, if_neg hcond] at hok
    repeat' split at hok
    all_goals try exact Except.noConfusion hok
    all_goals simp only [Except.ok.injEq, Prod.mk.injEq] at hok
    all_goals refine ⟨fun _ => ⟨_, hok.1.symm⟩, fun hgt => absurd hgt h6,
      fun h4 h20 h32 w hw => ?_⟩
    all_goals rw [← hok.1] at hw
    all_goals simp only [List.mem_cons, List.not_mem_nil, or_false] at hw
    all_goals subst hw
    all_goals simp [padArray, h4, h20]
    all_goals omega

/-- C8 witness: a 7-argument call emits the extended two-word pair, a
6-argument call the single standard word, all words 32 bytes long. -/
theorem c8_extended_threshold_witness :
    ∃ ws7 ps17 ws6 ps16,
      emitCommand c8Cmd7 c8PS = .ok (ws7, ps17) ∧
      emitCommand c8Cmd6 c8PS = .ok (ws6, ps16) ∧
      (∃ rb, ws7 =
        [c8Cmd7.call.fragment.signature ++ [c8Cmd7.call.flags ||| EXTENDED_COMMAND] ++
           List.replicate 6 0xFF ++ [rb] ++ c8Cmd7.call.address,
         padArray [0, 1, 2, 3, 4, 5, 6] 32 0xFF]) ∧
      (∃ rb, ws6 =
        [c8Cmd6.call.fragment.signature ++ [c8Cmd6.call.flags] ++
           padArray [0, 1, 2, 3, 4, 5] 6 0xFF ++ [rb] ++ c8Cmd6.call.address]) ∧
      (∀ w ∈ ws7, w.length = 32) ∧ (∀ w ∈ ws6, w.length = 32) := by
  have hok7 : (emitCommand c8Cmd7 c8PS).isOk = true := by decide
  have hok6 : (emitCommand c8Cmd6 c8PS).isOk = true := by decide
  cases hemit7 : emitCommand c8Cmd7 c8PS with
  | error e =>
      rw [hemit7] at hok7
      exact absurd hok7 (by simp [Except.isOk, Except.toBool])
  | ok r7 =>
      obtain ⟨ws7, ps17⟩ := r7
      cases hemit6 : emitCommand c8Cmd6 c8PS with
      | error e =>
          rw [hemit6] at hok6
          exact absurd hok6 (by simp [Except.isOk, Except.toBool])
      | ok r6 =>
          obtain ⟨ws6, ps16⟩ := r6
          have h7 := c8_extended_threshold c8Cmd7 c8PS [0, 1, 2, 3, 4, 5, 6] ws7 ps17
            (by decide) (by decide) hemit7
          have h6 := c8_extended_threshold c8Cmd6 c8PS [0, 1, 2, 3, 4, 5] ws6 ps16
            (by decide) (by decide) hemit6
          exact ⟨ws7, ps17, ws6, ps16, rfl, rfl, h7.2.1 (by decide), h6.1 (by decide),
            h7.2.2 (by decide) (by decide) (by decide),
            h6.2.2 (by decide) (by decide) (by decide)⟩

/-- C9 (amended): (1) at emission, a RAWCALL or SUBPLAN command whose id is
recorded in `commandVisibility` — i.e. whose return value some other command
consumes as a `Return` argument — fails with the exact ambiguous-consumption
error, provided argument resolution itself succeeded; (2) a planner one of
whose commands is such a consumed RAWCALL/SUBPLAN never plans successfully,
so no encoded output is ever produced; (3) on the two-command witness
program `plan()` reports exactly that message.  (An unrelated earlier
planning error can preempt the specific message, as the counterexample
shows, but planning still fails.) -/
theorem c9_rawcall_consumed_rejected :
    (∀ (c : Command) (ps : PS),
        (lookupA ps.commandVisibility c.id).isSome →
        (c.type = .RAWCALL ∨ c.type = .SUBPLAN) →
        ∀ args, buildCommandArgs c ps.returnSlotMap ps.literalSlotMap ps.state = .ok args →
        emitCommand c ps =
          .error ("Return value of " ++ c.call.fragment.name ++
            " cannot be used to replace state and in another function")) ∧
    (∀ (heap : Heap) (fuel : Nat) (pid : PlannerId) (g : Globals)
        (R K : Command) (p nm : String),
        R ∈ plannerCommands heap pid →
        (R.type = .RAWCALL ∨ R.type = .SUBPLAN) →
        K ∈ plannerCommands heap pid →
        ArgValue.ret p R.id nm ∈ K.call.args →
        ∀ r, plan heap fuel pid g ≠ .ok r) ∧
    plan c9Heap 6 0 ⟨[], []⟩ =
      .error "Return value of useState cannot be used to replace state and in another function" := by
  refine ⟨?_, ?_, by decide⟩
  · intro c ps hkey hty args hargs
    unfold emitCommand
    rw [hargs]
    simp only
    obtain ⟨X, hX⟩ := Option.isSome_iff_exists.mp hkey
    rw [hX]
    simp only
    rw [if_pos hty]
  · intro heap fuel pid g R K p nm hR hty hK hret r hok
    have hne : ∀ v, planFull heap fuel pid g ≠ .ok v := by
      intro v hpf
      unfold planFull at hpf
      cases hpre : preplanPlanner heap fuel pid ⟨[], [], g.seen, g.planners⟩ with
      | error e => rw [hpre] at hpf; exact Except.noConfusion hpf
      | ok pre =>
          rw [hpre] at hpf
          simp only at hpf
          rcases hpp : prepop pre.literalVisibility [] [] [] with ⟨state0, lsm0, exps0⟩
          rw [hpp] at hpf
          simp only at hpf
          cases hbuild : buildCommands heap fuel pid
              ⟨[], lsm0, [], exps0, pre.commandVisibility, state0⟩ with
          | error e => rw [hbuild] at hpf; exact Except.noConfusion hpf
          | ok br =>
              have hkey : (lookupA pre.commandVisibility R.id).isSome :=
                preplan_ret_recorded hpre hK hret
              cases fuel with
              | zero => exact Except.noConfusion hbuild
              | succ gf =>
                  simp only [buildCommands] at hbuild
                  obtain ⟨s1, s2, h1, hstep, -⟩ :=
                    exceptFold_elem_rel
                      (fun a b : List Bytes × PS =>
                        b.2.commandVisibility = a.2.commandVisibility)
                      (fun _ => rfl) (fun _ _ _ hab hbc => hbc.trans hab) _
                      (fun s a s' hs => buildCmd_cv_eq hs)
                      (plannerCommands heap pid) _ br hbuild R hR
                  simp only [buildCmd] at hstep
                  cases hsub : subplanPhase (buildCommands heap gf) R s1.2 with
                  | error e => rw [hsub] at hstep; exact Except.noConfusion hstep
                  | ok psm =>
                      rw [hsub] at hstep
                      simp only at hstep
                      cases hem : emitCommand R psm with
                      | error e => rw [hem] at hstep; exact Except.noConfusion hstep
                      | ok er =>
                          have hkey2 : (lookupA psm.commandVisibility R.id).isSome := by
                            rw [subplanPhase_cv_eq hsub, h1]
                            exact hkey
                          exact absurd hem
                            (emitCommand_consumed_rawcall_fails hkey2 hty er)
    cases hpf : planFull heap fuel pid g with
    | error e =>
        simp only [plan, hpf, Except.map] at hok
        exact Except.noConfusion hok
    | ok v => exact hne v hpf

/-- C9 witness: the consumed-RAWCALL emission error and the whole-plan
failure, both instantiated on the `useState`/`logBytes` program. -/
theorem c9_rawcall_consumed_rejected_witness :
    emitCommand ⟨0, ⟨mathAddr, 1, useStateFrag, [.state], none⟩, .RAWCALL⟩
        ⟨[], [], [], [], [(0, 1)], []⟩ =
      .error "Return value of useState cannot be used to replace state and in another function" ∧
    plan c9Heap 6 0 ⟨[], []⟩ ≠
      .ok ((([], []), ⟨[], []⟩) : (List Bytes × List Bytes) × Globals) :=
  ⟨c9_rawcall_consumed_rejected.1
      ⟨0, ⟨mathAddr, 1, useStateFrag, [.state], none⟩, .RAWCALL⟩
      ⟨[], [], [], [], [(0, 1)], []⟩ (by decide) (Or.inl rfl) [0xFE] (by decide),
   c9_rawcall_consumed_rejected.2.1 c9Heap 6 0 ⟨[], []⟩
      ⟨0, ⟨mathAddr, 1, useStateFrag, [.state], none⟩, .RAWCALL⟩
      ⟨1, ⟨mathAddr, 0, logFrag, [.ret "bytes[]" 0 "useState"], none⟩, .CALL⟩
      "bytes[]" "useState" (by decide) (Or.inl rfl) (by decide) (by decide) _⟩

/-- C10: `Planner.add` on a call containing a `SubplanValue` argument
returns the error "Only subplans can have arguments of type SubplanValue",
but the command has already been appended, so the planner comes back with
its command list grown by one. -/
theorem c10_add_appends_before_subplan_check (p : Planner) (cid : CommandId)
    (call : FunctionCall) (h : call.args.any isSubplanArg = true) :
    Planner.add p cid call =
      (⟨p.commands ++ [⟨cid, call, .CALL⟩]⟩,
       .error "Only subplans can have arguments of type SubplanValue") := by
  simp [Planner.add, h]

/-- C10 witness: adding `add(1, subplanner)` to an empty planner rejects the
call but still appends the command. -/
theorem c10_add_appends_before_subplan_check_witness :
    Planner.add ⟨[]⟩ 0 c10Call =
      (⟨[⟨0, c10Call, .CALL⟩]⟩,
       .error "Only subplans can have arguments of type SubplanValue") :=
  c10_add_appends_before_subplan_check ⟨[]⟩ 0 c10Call (by decide)

end Weiroll
